import Mathlib

/-!
binance-chart: the series store and the ingestion loop.

A shallow embedding of `main.go`.

* The file system is a map from file names to contents; it is passed
  explicitly through every function that touches the disk.  It is reliable:
  `os.ReadFile` and `os.OpenFile` fail exactly when the file is absent,
  `os.Create` and `Write` always complete.
* `encoding/json` is an external library.  It enters as a parameter `J : Json F`
  (the two functions the program calls); the facts about it that a proof uses
  are collected in `Json.Lawful`.  `goJson` is a concrete codec that prints the
  exact text of `json.MarshalIndent(v, "", "\t")` for a fragment of `float64`
  and reads it back; every law is proved for it.
* `float64` values are never computed with, only carried: the type `F` of
  values is a parameter.  `int64` values are compared but never added, so they
  are integers.
* `sendRequest` and the `gjson` projections are the environment of one cycle:
  `CycleEnv` holds what the request returned and what the clock shows.
-/

namespace BinanceChart

/-! ## Go values -/

/-- File contents.  All text written or read here is ASCII: one character is one byte. -/
abbrev Bytes := List Char

/-- The Go `error` values that occur. -/
inductive GoError where
  | ErrNotExist
  | transport
  | unsupportedValue
  | syntaxError
  deriving DecidableEq, Repr

/-- A Go slice: `none` is the nil slice, `some l` a non-nil slice with elements `l`. -/
abbrev Slice (α : Type) := Option (List α)

/-- The elements of a slice (`nil` has none). -/
def Slice.elems {α : Type} (s : Slice α) : List α := s.getD []

/-- Go `len(s)`. -/
def Slice.len {α : Type} (s : Slice α) : Nat := s.elems.length

/-- Go `append(s, x)`: the result is never nil. -/
def Slice.append {α : Type} (s : Slice α) (x : α) : Slice α := some (s.elems ++ [x])

/-- The struct `jsonStruct` of `main.go`. -/
structure jsonStruct (F : Type) where
  TotalBorrow : Slice F
  TotalRepay : Slice F
  TotalTime : Slice Int
  deriving DecidableEq, Repr

/-- The zero value `jsonStruct{}`: three nil slices. -/
def jsonStruct.zero {F : Type} : jsonStruct F := ⟨none, none, none⟩

/-- The two functions of `encoding/json` that the program calls:
`json.MarshalIndent(v, "", "\t")` and `json.Unmarshal(data, &v)` into a zero `v`. -/
structure Json (F : Type) where
  MarshalIndent : jsonStruct F → Except GoError Bytes
  Unmarshal : Bytes → Except GoError (jsonStruct F)

/-! ## The file system -/

/-- The directory `coinsJson`: file name to content, `none` when the file is absent. -/
abbrev FS := String → Option Bytes

/-- The empty directory. -/
def FS.empty : FS := fun _ => none

/-- Replace the content of one file. -/
def FS.set (fs : FS) (name : String) (content : Bytes) : FS :=
  fun n => if n = name then some content else fs n

/-- Writing `new` at offset 0 of a file holding `old`, without truncation: the bytes
of `old` beyond the length of `new` stay. -/
def overwrite (old new : Bytes) : Bytes := new ++ old.drop new.length

namespace os

/-- Go `os.ReadFile`. -/
def ReadFile (fs : FS) (name : String) : Except GoError Bytes :=
  match fs name with
  | none => .error .ErrNotExist
  | some content => .ok content

/-- Go `os.Create`: the file exists and is empty afterwards. -/
def Create (fs : FS) (name : String) : Except GoError FS :=
  .ok (fs.set name [])

/-- Go `os.OpenFile(name, os.O_WRONLY, 0600)`: no `O_CREATE`, no `O_TRUNC`.
The result is the content the opened file holds. -/
def OpenFile (fs : FS) (name : String) : Except GoError Bytes :=
  match fs name with
  | none => .error .ErrNotExist
  | some content => .ok content

/-- Go `file.Write(content)` on a freshly opened file holding `old`. -/
def Write (fs : FS) (name : String) (old content : Bytes) : FS :=
  fs.set name (overwrite old content)

end os

/-- The file of a coin: `fmt.Sprintf("coinsJson/%s.json", coin)`. -/
def fileName (coin : String) : String := "coinsJson/" ++ coin ++ ".json"

/-! ## The series store -/

/-- The tail of `readJson` (lines 171 to 175): read again, ignoring the error, and decode. -/
def readJson.reread {F : Type} (J : Json F) (fs : FS) (name : String) :
    Except GoError (jsonStruct F) × FS :=
  let file : Bytes := match os.ReadFile fs name with
    | .ok content => content
    | .error _ => []
  match J.Unmarshal file with
  | .error err => (.error err, fs)
  | .ok jsonF => (.ok jsonF, fs)

/-- The function `readJson` of `main.go`. -/
def readJson {F : Type} (J : Json F) (fs : FS) (coin : String) :
    Except GoError (jsonStruct F) × FS :=
  match os.ReadFile fs (fileName coin) with
  | .error err =>
    if err = .ErrNotExist then
      match os.Create fs (fileName coin) with
      | .error err1 => (.error err1, fs)
      | .ok fs1 =>
        match J.MarshalIndent jsonStruct.zero with
        | .error err2 => (.error err2, fs1)
        | .ok content => readJson.reread J (os.Write fs1 (fileName coin) [] content) (fileName coin)
    else readJson.reread J fs (fileName coin)
  | .ok file =>
    match J.Unmarshal file with
    | .error err => (.error err, fs)
    | .ok jsonF => (.ok jsonF, fs)

/-- The function `writeJson` of `main.go`. -/
def writeJson {F : Type} (J : Json F) (fs : FS) (saveJson : jsonStruct F) (coin : String) :
    Except GoError Unit × FS :=
  match os.OpenFile fs (fileName coin) with
  | .error err => (.error err, fs)
  | .ok old =>
    match J.MarshalIndent saveJson with
    | .error err => (.error err, fs)
    | .ok content => (.ok (), os.Write fs (fileName coin) old content)

/-! ## The ingestion loop -/

/-- One element of `data.coins`, as the `gjson` projections read it. -/
structure Coin (F : Type) where
  asset : String
  totalBorrowInUsdt : F
  totalRepayInUsdt : F
  deriving DecidableEq, Repr

/-- What `work` reads from a response: `data.calculationTime` and `data.coins`. -/
structure Snapshot (F : Type) where
  calculationTime : Int
  coins : List (Coin F)
  deriving DecidableEq, Repr

/-- The environment of one cycle: the result of `sendRequest` and the value of
`time.Now().Unix()` while the coin at each index is handled. -/
structure CycleEnv (F : Type) where
  response : Except GoError (Snapshot F)
  clock : Nat → Int

/-- The body of the loop over `coins.Array()` (lines 103 to 127) for one coin at clock
reading `now`.  The flag is `true` when the iteration reaches its end, `false` when it
logs an error and continues. -/
def work.coin {F : Type} (J : Json F) (fs : FS) (coin : Coin F) (now : Int) : FS × Bool :=
  match readJson J fs coin.asset with
  | (.error _, fs1) => (fs1, false)
  | (.ok data, fs1) =>
    let saveJson : jsonStruct F :=
      { TotalBorrow := data.TotalBorrow.append coin.totalBorrowInUsdt
        TotalRepay := data.TotalRepay.append coin.totalRepayInUsdt
        TotalTime := data.TotalTime.append now }
    match writeJson J fs1 saveJson coin.asset with
    | (.error _, fs2) => (fs2, false)
    | (.ok _, fs2) => (fs2, true)

/-- The loop over `coins.Array()`: each coin comes with the clock reading of its iteration. -/
def work.coins {F : Type} (J : Json F) (fs : FS) : List (Coin F × Int) → FS × List Bool
  | [] => (fs, [])
  | (coin, now) :: rest =>
    let r := work.coin J fs coin now
    let rs := work.coins J r.1 rest
    (rs.1, r.2 :: rs.2)

/-- The clock reading attached to every coin of a snapshot. -/
def timed {F : Type} (coins : List (Coin F)) (clock : Nat → Int) : List (Coin F × Int) :=
  coins.zip ((List.range coins.length).map clock)

/-- What one cycle logs. -/
inductive Outcome where
  | fetchFailed
  | waiting
  | ok (saved : List Bool)
  deriving DecidableEq, Repr

/-- The state of `work`: the directory and the variable `oldD`. -/
structure State where
  fs : FS
  oldD : Int

/-- One cycle: the closure called in the loop of `work` (lines 88 to 135). -/
def work.cycle {F : Type} (J : Json F) (st : State) (env : CycleEnv F) : State × Outcome :=
  match env.response with
  | .error _ => (st, .fetchFailed)
  | .ok result =>
    let calcTimer := result.calculationTime
    if calcTimer > st.oldD then
      let r := work.coins J st.fs (timed result.coins env.clock)
      ({ fs := r.1, oldD := calcTimer }, .ok r.2)
    else (st, .waiting)

/-- The loop of `work` over the environments of its first cycles, with the log. -/
def work.loop {F : Type} (J : Json F) (st : State) : List (CycleEnv F) → State × List Outcome
  | [] => (st, [])
  | env :: envs =>
    let r := work.cycle J st env
    let rs := work.loop J r.1 envs
    (rs.1, r.2 :: rs.2)

/-- The function `work` up to its first cycles: `oldD` starts at `time.Now().Unix()`. -/
def work {F : Type} (J : Json F) (fs : FS) (startNow : Int) (envs : List (CycleEnv F)) :
    State × List Outcome :=
  work.loop J { fs := fs, oldD := startNow } envs

/-- The struct `saveJson` that `work` builds from the loaded `data` and one observation. -/
def jsonStruct.observe {F : Type} (data : jsonStruct F) (borrow repay : F) (now : Int) :
    jsonStruct F :=
  { TotalBorrow := data.TotalBorrow.append borrow
    TotalRepay := data.TotalRepay.append repay
    TotalTime := data.TotalTime.append now }

/-- What the proofs use of `encoding/json`:
* the zero struct can be marshalled;
* unmarshalling a marshalled text gives the value back;
* a marshalled text is a complete document: followed by anything, it decodes to the same
  value or not at all;
* the text of a struct with one more observation is at least as long. -/
structure Json.Lawful {F : Type} (J : Json F) : Prop where
  marshal_zero : ∃ text, J.MarshalIndent jsonStruct.zero = .ok text
  roundtrip : ∀ v text, J.MarshalIndent v = .ok text → J.Unmarshal text = .ok v
  complete : ∀ v text tail w, J.MarshalIndent v = .ok text →
    J.Unmarshal (text ++ tail) = .ok w → w = v
  grows : ∀ v b r t text text', J.MarshalIndent v = .ok text →
    J.MarshalIndent (v.observe b r t) = .ok text' → text.length ≤ text'.length

/-! ## A concrete codec -/

/-- A fragment of `float64`: the integers (meant: those a `float64` holds exactly and
prints in full) and `NaN`. -/
inductive Float64 where
  | ofInt (n : Int)
  | NaN
  deriving DecidableEq, Repr

/-- The decimal digit of a number below ten. -/
def digitChar : Nat → Char
  | 0 => '0' | 1 => '1' | 2 => '2' | 3 => '3' | 4 => '4'
  | 5 => '5' | 6 => '6' | 7 => '7' | 8 => '8' | _ => '9'

/-- The value of a decimal digit. -/
def digitVal (c : Char) : Option Nat :=
  if c = '0' then some 0 else if c = '1' then some 1 else if c = '2' then some 2
  else if c = '3' then some 3 else if c = '4' then some 4 else if c = '5' then some 5
  else if c = '6' then some 6 else if c = '7' then some 7 else if c = '8' then some 8
  else if c = '9' then some 9 else none

/-- The decimal text of a natural number, most significant digit first. -/
def natDigits : Nat → Nat → List Char
  | 0, _ => []
  | fuel + 1, n => if n < 10 then [digitChar n] else natDigits fuel (n / 10) ++ [digitChar (n % 10)]

/-- The text `strconv` prints for a natural number. -/
def natText (n : Nat) : List Char := natDigits (n + 1) n

/-- The text `strconv` prints for an integer. -/
def intText (n : Int) : List Char :=
  if n < 0 then '-' :: natText n.natAbs else natText n.natAbs

/-- The text of a `float64`; `NaN` has none (`UnsupportedValueError`). -/
def floatText : Float64 → Option (List Char)
  | .ofInt n => some (intText n)
  | .NaN => none

/-- The indented text of an array whose elements are already printed. -/
def arrText : Slice (List Char) → List Char
  | none => "null".toList
  | some [] => "[]".toList
  | some (x :: xs) =>
    "[\n\t\t".toList ++ x ++ (xs.flatMap fun y => ",\n\t\t".toList ++ y) ++ "\n\t]".toList

/-- All elements of a list of options, when none is missing. -/
def allSome {α : Type} : List (Option α) → Option (List α)
  | [] => some []
  | none :: _ => none
  | some x :: xs => (allSome xs).map (x :: ·)

/-- The printed elements of a slice of floats. -/
def floatTexts : Slice Float64 → Option (Slice (List Char))
  | none => some none
  | some l => (allSome (l.map floatText)).map some

/-- The text of `json.MarshalIndent(v, "", "\t")` for a `jsonStruct`. -/
def marshalText (v : jsonStruct Float64) : Option (List Char) :=
  match floatTexts v.TotalBorrow, floatTexts v.TotalRepay with
  | some b, some r =>
    some ("\x7b\n\t\"totalBorrow\": ".toList ++ arrText b ++ ",\n\t\"totalRepay\": ".toList ++ arrText r
      ++ ",\n\t\"totalTime\": ".toList ++ arrText (v.TotalTime.map (List.map intText)) ++ "\n\x7d".toList)
  | _, _ => none

/-- JSON tokens. -/
inductive Tok where
  | lbrace | rbrace | lbrack | rbrack | comma | colon | null
  | str (s : List Char)
  | num (neg : Bool) (ds : List Char)
  deriving DecidableEq, Repr

/-- The state of the scanner: between tokens, inside a string, inside a number, inside
the literal `null` with the characters still expected. -/
inductive Scan where
  | idle
  | inStr (acc : List Char)
  | inNum (neg : Bool) (ds : List Char)
  | inNull (expect : List Char)

/-- JSON white space. -/
def isWs (c : Char) : Bool := c = ' ' || c = '\t' || c = '\n' || c = '\r'

/-- The six structural characters. -/
def punct (c : Char) : Option Tok :=
  if c = '\x7b' then some .lbrace else if c = '\x7d' then some .rbrace
  else if c = '[' then some .lbrack else if c = ']' then some .rbrack
  else if c = ',' then some .comma else if c = ':' then some .colon else none

/-- The scanner: the tokens of a text, `none` when the text is not a token sequence. -/
def scan : Scan → List Char → Option (List Tok)
  | .idle, [] => some []
  | .idle, c :: cs =>
    if isWs c then scan .idle cs
    else match punct c with
      | some t => (scan .idle cs).map (t :: ·)
      | none =>
        if c = '\x22' then scan (.inStr []) cs
        else if c = '-' then scan (.inNum true []) cs
        else if (digitVal c).isSome then scan (.inNum false [c]) cs
        else if c = 'n' then scan (.inNull ['u', 'l', 'l']) cs
        else none
  | .inStr _, [] => none
  | .inStr acc, c :: cs =>
    if c = '\x22' then (scan .idle cs).map (Tok.str acc.reverse :: ·)
    else if c = '\x5c' || c.toNat < 32 then none
    else scan (.inStr (c :: acc)) cs
  | .inNum neg ds, [] => some [.num neg ds]
  | .inNum neg ds, c :: cs =>
    if (digitVal c).isSome then scan (.inNum neg (ds ++ [c])) cs
    else if isWs c then (scan .idle cs).map (Tok.num neg ds :: ·)
    else match punct c with
      | some t => (scan .idle cs).map (fun ts => Tok.num neg ds :: t :: ts)
      | none => none
  | .inNull _, [] => none
  | .inNull expect, c :: cs =>
    match expect with
    | [] => none
    | [e] => if c = e then (scan .idle cs).map (Tok.null :: ·) else none
    | e :: es => if c = e then scan (.inNull es) cs else none

/-- The value of a digit string. -/
def digitsValue (ds : List Char) : Nat :=
  ds.foldl (fun a c => 10 * a + (digitVal c).getD 0) 0

/-- The integer of a number token: digits present, no leading zero, no negative zero. -/
def numValue (neg : Bool) (ds : List Char) : Option Int :=
  match ds with
  | [] => none
  | d :: rest =>
    if d = '0' ∧ rest ≠ [] then none
    else if neg then (if digitsValue ds = 0 then none else some (-(digitsValue ds : Int)))
    else some (digitsValue ds : Int)

/-- The rest of an array after its first element. -/
def parseElems : List Tok → Option (List Int × List Tok)
  | .rbrack :: rest => some ([], rest)
  | .comma :: .num neg ds :: rest =>
    match numValue neg ds, parseElems rest with
    | some v, some (vs, r) => some (v :: vs, r)
    | _, _ => none
  | _ => none

/-- A field value: `null` or an array of integers. -/
def parseArr : List Tok → Option (Slice Int × List Tok)
  | .null :: rest => some (none, rest)
  | .lbrack :: .rbrack :: rest => some (some [], rest)
  | .lbrack :: .num neg ds :: rest =>
    match numValue neg ds, parseElems rest with
    | some v, some (vs, r) => some (some (v :: vs), r)
    | _, _ => none
  | _ => none

/-- One member `"key": value` of the object. -/
def parseField (key : String) : List Tok → Option (Slice Int × List Tok)
  | .str k :: .colon :: rest => if k = key.toList then parseArr rest else none
  | _ => none

/-- The object with the three fields of `jsonStruct`, in the order of the struct. -/
def parseDoc (ts : List Tok) : Option (jsonStruct Float64) :=
  match ts with
  | .lbrace :: r0 =>
    match parseField "totalBorrow" r0 with
    | some (b, .comma :: r1) =>
      match parseField "totalRepay" r1 with
      | some (r, .comma :: r2) =>
        match parseField "totalTime" r2 with
        | some (t, [.rbrace]) =>
          some { TotalBorrow := b.map (List.map Float64.ofInt)
                 TotalRepay := r.map (List.map Float64.ofInt)
                 TotalTime := t }
        | _ => none
      | _ => none
    | _ => none
  | _ => none

/-- The token of a printed integer. -/
def numTok (n : Int) : Tok := .num (decide (n < 0)) (natText n.natAbs)

/-- The tokens of the elements of an array after the first. -/
def moreToks (xs : List Int) : List Tok := xs.flatMap fun y => [Tok.comma, numTok y]

/-- The tokens of a printed array. -/
def arrToks : Slice Int → List Tok
  | none => [.null]
  | some [] => [.lbrack, .rbrack]
  | some (x :: xs) => .lbrack :: numTok x :: (moreToks xs ++ [.rbrack])

/-- The text of a document whose float fields hold the integers `b` and `r`. -/
def docText (b r t : Slice Int) : List Char :=
  "\x7b\n\t\"totalBorrow\": ".toList ++ arrText (b.map (List.map intText))
    ++ ",\n\t\"totalRepay\": ".toList ++ arrText (r.map (List.map intText))
    ++ ",\n\t\"totalTime\": ".toList ++ arrText (t.map (List.map intText)) ++ "\n\x7d".toList

/-- The struct whose float fields hold the integers `b` and `r`. -/
def docValue (b r t : Slice Int) : jsonStruct Float64 :=
  { TotalBorrow := b.map (List.map Float64.ofInt)
    TotalRepay := r.map (List.map Float64.ofInt)
    TotalTime := t }

/-- The tokens of a printed document. -/
def docToks (b r t : Slice Int) : List Tok :=
  .lbrace :: .str "totalBorrow".toList :: .colon :: (arrToks b ++
    .comma :: .str "totalRepay".toList :: .colon :: (arrToks r ++
      .comma :: .str "totalTime".toList :: .colon :: (arrToks t ++ [.rbrace])))

/-- The codec: the text of `MarshalIndent` and a reader of the documents whose members
are the three fields in the order of the struct, with any white space between tokens.
Every document it accepts, with numbers in the range of the Go types, `json.Unmarshal`
decodes to the same value. -/
def goJson : Json Float64 where
  MarshalIndent v :=
    match marshalText v with
    | some text => .ok text
    | none => .error .unsupportedValue
  Unmarshal data :=
    match (scan .idle data).bind parseDoc with
    | some v => .ok v
    | none => .error .syntaxError

/-! ## The dashboard -/

/-- The type `opts.LineData` of go-echarts, reduced to its `Value`. -/
structure LineData (F : Type) where
  Value : F
  deriving DecidableEq, Repr

/-- The four results of `getLineItems`. -/
structure LineItems (F : Type) where
  items1 : List (LineData F)
  items2 : List (LineData F)
  times : List String
  err : Option GoError
  deriving DecidableEq, Repr

/-- The function `getLineItems` of `main.go`.  `format` is
`time.Unix(value, 0).Format("02-01-2006 15:04:05")`. -/
def getLineItems {F : Type} (J : Json F) (format : Int → String) (fs : FS) (coinName : String) :
    LineItems F × FS :=
  match readJson J fs coinName with
  | (.error err, fs1) => ({ items1 := [], items2 := [], times := [], err := some err }, fs1)
  | (.ok data, fs1) =>
    let items1 := data.TotalBorrow.elems.foldl (fun items value => items ++ [LineData.mk value]) []
    let items2 := data.TotalRepay.elems.foldl (fun items value => items ++ [LineData.mk value]) []
    let times := data.TotalTime.elems.foldl (fun times value => times ++ [format value]) []
    ({ items1 := items1, items2 := items2, times := times, err := none }, fs1)

/-- The part of a `charts.Line` that `generateChart` fills from the series. -/
structure Line (F : Type) where
  coinName : String
  XAxis : List String
  Series : List (String × List (LineData F))
  deriving DecidableEq, Repr

/-- The function `generateChart` of `main.go`. -/
def generateChart {F : Type} (J : Json F) (format : Int → String) (fs : FS) (coinName : String) :
    Except GoError (Line F) × FS :=
  match getLineItems J format fs coinName with
  | (r, fs1) =>
    match r.err with
    | some err => (.error err, fs1)
    | none =>
      (.ok { coinName := coinName, XAxis := r.times,
             Series := [("Borrowed", r.items1), ("Payed", r.items2)] }, fs1)

/-! ## Vocabulary of the properties -/

/-- The series stored for a coin: the decoded content of its file, when there is a file
and it decodes. -/
def stored {F : Type} (J : Json F) (fs : FS) (coin : String) : Option (jsonStruct F) :=
  match fs (fileName coin) with
  | none => none
  | some content =>
    match J.Unmarshal content with
    | .ok v => some v
    | .error _ => none

/-- The three slices of a struct have the same length. -/
def jsonStruct.EqualLengths {F : Type} (v : jsonStruct F) : Prop :=
  v.TotalBorrow.len = v.TotalRepay.len ∧ v.TotalRepay.len = v.TotalTime.len

/-- Every record that decodes has three slices of the same length. -/
def EqualLengths {F : Type} (J : Json F) (fs : FS) : Prop :=
  ∀ name content v, fs name = some content → J.Unmarshal content = .ok v → v.EqualLengths

/-- Every record is a text that `MarshalIndent` prints: the directory holds what the
program itself wrote. -/
def Canonical {F : Type} (J : Json F) (fs : FS) : Prop :=
  ∀ name content, fs name = some content → ∃ v, J.MarshalIndent v = .ok content

/-- An operation on the store: a load (as `start` and `drawCharts` do through `readJson`)
or one cycle of `work`. -/
inductive Op (F : Type) where
  | load (coin : String)
  | cycle (env : CycleEnv F)

/-- The state after one operation. -/
def Op.run {F : Type} (J : Json F) (st : State) : Op F → State
  | .load coin => { st with fs := (readJson J st.fs coin).2 }
  | .cycle env => (work.cycle J st env).1

/-- The state after a sequence of operations. -/
def runOps {F : Type} (J : Json F) (st : State) (ops : List (Op F)) : State :=
  ops.foldl (Op.run J) st

/-- The `calculationTime` of the snapshots of the cycles that logged `ok`. -/
def acceptedTimes {F : Type} : List (CycleEnv F) → List Outcome → List Int
  | env :: envs, .ok _ :: log =>
    match env.response with
    | .ok snap => snap.calculationTime :: acceptedTimes envs log
    | .error _ => acceptedTimes envs log
  | _ :: envs, _ :: log => acceptedTimes envs log
  | _, _ => []

/-- The number of cycles that logged `ok` and whose snapshot names the coin. -/
def acceptedWith {F : Type} (coin : String) : List (CycleEnv F) → List Outcome → Nat
  | env :: envs, .ok _ :: log =>
    match env.response with
    | .ok snap =>
      (if snap.coins.any (fun c => c.asset = coin) then 1 else 0) + acceptedWith coin envs log
    | .error _ => acceptedWith coin envs log
  | _ :: envs, _ :: log => acceptedWith coin envs log
  | _, _ => 0

/-- The observations of the entries of one snapshot that name the coin and were saved. -/
def savedObs {F : Type} (coin : String) : List (Coin F × Int) → List Bool → List (F × F × Int)
  | (c, now) :: entries, flag :: flags =>
    if c.asset = coin ∧ flag = true then
      (c.totalBorrowInUsdt, c.totalRepayInUsdt, now) :: savedObs coin entries flags
    else savedObs coin entries flags
  | _, _ => []

/-- The observations saved for the coin over a run, in order. -/
def savedInRun {F : Type} (coin : String) : List (CycleEnv F) → List Outcome → List (F × F × Int)
  | env :: envs, .ok flags :: log =>
    match env.response with
    | .ok snap => savedObs coin (timed snap.coins env.clock) flags ++ savedInRun coin envs log
    | .error _ => savedInRun coin envs log
  | _ :: envs, _ :: log => savedInRun coin envs log
  | _, _ => []

/-- The content and the flag that the loop body leaves for a record holding `content`:
the decoded series with the observation appended is written at offset 0, unless decoding
or marshalling fails. -/
def entryResult {F : Type} (J : Json F) (content : Bytes) (coin : Coin F) (now : Int) :
    Bytes × Bool :=
  match J.Unmarshal content with
  | .error _ => (content, false)
  | .ok data =>
    match J.MarshalIndent (data.observe coin.totalBorrowInUsdt coin.totalRepayInUsdt now) with
    | .error _ => (content, false)
    | .ok text => (overwrite content text, true)

/-- The record and the flag that the loop body leaves for the file of its coin, from what
the file held before (`none`: absent). -/
def recordAfter {F : Type} (J : Json F) (record : Option Bytes) (coin : Coin F) (now : Int) :
    Option Bytes × Bool :=
  match record with
  | some content => (some (entryResult J content coin now).1, (entryResult J content coin now).2)
  | none =>
    match J.MarshalIndent jsonStruct.zero with
    | .error _ => (some [], false)
    | .ok text => (some (entryResult J text coin now).1, (entryResult J text coin now).2)

/-- The series of a coin, empty when there is no record. -/
def series {F : Type} (J : Json F) (fs : FS) (coin : String) : jsonStruct F :=
  (stored J fs coin).getD jsonStruct.zero

/-- The flags of the entries that name the coin. -/
def flagsOf {F : Type} (coin : String) (entries : List (Coin F × Int)) (flags : List Bool) :
    List Bool :=
  ((entries.zip flags).filter (fun x => x.1.1.asset = coin)).map (fun x => x.2)

/-- The series after a list of observations is appended one by one. -/
def observeAll {F : Type} (v : jsonStruct F) (obs : List (F × F × Int)) : jsonStruct F :=
  obs.foldl (fun w o => w.observe o.1 o.2.1 o.2.2) v

/-! ## Concrete directories and snapshots -/

/-- One observation of BTC. -/
def btcOne : jsonStruct Float64 :=
  { TotalBorrow := some [.ofInt 5], TotalRepay := some [.ofInt 3], TotalTime := some [1700000000] }

/-- Two observations of BTC. -/
def btcTwo : jsonStruct Float64 :=
  { TotalBorrow := some [.ofInt 5, .ofInt 7], TotalRepay := some [.ofInt 3, .ofInt 4],
    TotalTime := some [1700000000, 1700000060] }

/-- The text `MarshalIndent` prints for `btcOne`. -/
def btcOneText : Bytes :=
  "\x7b\n\t\"totalBorrow\": [\n\t\t5\n\t],\n\t\"totalRepay\": [\n\t\t3\n\t],\n\t\"totalTime\": [\n\t\t1700000000\n\t]\n\x7d".toList

/-- The text `MarshalIndent` prints for `btcTwo`. -/
def btcTwoText : Bytes :=
  "\x7b\n\t\"totalBorrow\": [\n\t\t5,\n\t\t7\n\t],\n\t\"totalRepay\": [\n\t\t3,\n\t\t4\n\t],\n\t\"totalTime\": [\n\t\t1700000000,\n\t\t1700000060\n\t]\n\x7d".toList

/-- The document of `btcOne` indented with four spaces per level instead of one tab. -/
def btcOneSpaces : Bytes :=
  "\x7b\n    \"totalBorrow\": [\n        5\n    ],\n    \"totalRepay\": [\n        3\n    ],\n    \"totalTime\": [\n        1700000000\n    ]\n\x7d".toList

/-- A record cut short: the first bytes of a document. -/
def btcCut : Bytes := "\x7b\n\t\"totalBorrow\": [\n\t\t5".toList

/-- A directory whose only file is the record of BTC with the given content. -/
def fsBtc (content : Bytes) : FS := FS.empty.set (fileName "BTC") content

/-- The state of `work` with one observation of BTC stored and `oldD` at 100. -/
def stBtcOne : State := { fs := fsBtc btcOneText, oldD := 100 }

/-- A snapshot with one entry for BTC. -/
def snapBtc (calculationTime : Int) : Snapshot Float64 :=
  { calculationTime := calculationTime,
    coins := [{ asset := "BTC", totalBorrowInUsdt := .ofInt 7, totalRepayInUsdt := .ofInt 4 }] }

/-- A snapshot that names BTC twice. -/
def snapBtcTwice : Snapshot Float64 :=
  { calculationTime := 150,
    coins := [{ asset := "BTC", totalBorrowInUsdt := .ofInt 5, totalRepayInUsdt := .ofInt 3 },
              { asset := "BTC", totalBorrowInUsdt := .ofInt 7, totalRepayInUsdt := .ofInt 4 }] }

/-- A snapshot with an entry for BTC whose borrow total is not a number, and one for ETH. -/
def snapBtcNaN : Snapshot Float64 :=
  { calculationTime := 150,
    coins := [{ asset := "BTC", totalBorrowInUsdt := .NaN, totalRepayInUsdt := .ofInt 4 },
              { asset := "ETH", totalBorrowInUsdt := .ofInt 9, totalRepayInUsdt := .ofInt 8 }] }

/-- A snapshot with an entry for ETH whose borrow total is not a number, and one for BTC. -/
def snapEthNaN : Snapshot Float64 :=
  { calculationTime := 150,
    coins := [{ asset := "ETH", totalBorrowInUsdt := .NaN, totalRepayInUsdt := .ofInt 8 },
              { asset := "BTC", totalBorrowInUsdt := .ofInt 7, totalRepayInUsdt := .ofInt 4 }] }

/-- A cycle whose request returned the snapshot, at clock reading 1700000060. -/
def envOf (snap : Snapshot Float64) : CycleEnv Float64 :=
  { response := .ok snap, clock := fun _ => 1700000060 }

/-- A cycle whose request failed. -/
def envFailed : CycleEnv Float64 :=
  { response := .error .transport, clock := fun _ => 1700000060 }

/-! ## The concrete codec is lawful -/

theorem digitVal_digitChar (d : Nat) (h : d < 10) : digitVal (digitChar d) = some d := by
  interval_cases d <;> rfl

theorem digit_not_special (c : Char) (h : (digitVal c).isSome = true) :
    isWs c = false ∧ punct c = none ∧ c ≠ '\x22' ∧ c ≠ '-' ∧ c ≠ 'n' := by
  unfold digitVal at h
  split_ifs at h <;> first | (subst c; decide) | simp at h

theorem digitsValue_snoc (ds : List Char) (c : Char) :
    digitsValue (ds ++ [c]) = 10 * digitsValue ds + (digitVal c).getD 0 := by
  simp [digitsValue, List.foldl_append]

theorem natDigits_value : ∀ (fuel n : Nat), n < fuel → digitsValue (natDigits fuel n) = n
  | 0, _, h => by omega
  | fuel + 1, n, h => by
    unfold natDigits
    split_ifs with h10
    · simp [digitsValue, digitVal_digitChar n h10]
    · rw [digitsValue_snoc, natDigits_value fuel (n / 10) (by omega),
        digitVal_digitChar _ (Nat.mod_lt _ (by decide))]
      simp only [Option.getD_some]
      omega

theorem natDigits_digit : ∀ (fuel n : Nat) (c : Char), c ∈ natDigits fuel n →
    (digitVal c).isSome = true
  | 0, _, c, h => by simp [natDigits] at h
  | fuel + 1, n, c, h => by
    unfold natDigits at h
    split_ifs at h with h10
    · simp only [List.mem_singleton] at h
      subst h
      simp [digitVal_digitChar n h10]
    · simp only [List.mem_append, List.mem_singleton] at h
      rcases h with h | h
      · exact natDigits_digit fuel _ c h
      · subst h
        simp [digitVal_digitChar _ (Nat.mod_lt n (by decide : 0 < 10))]

theorem digitChar_ne_zero (d : Nat) (h0 : 0 < d) : digitChar d ≠ '0' := by
  by_cases h : d < 10
  · interval_cases d <;> decide
  · have : digitChar d = '9' := by
      unfold digitChar
      split <;> first | omega | rfl
    rw [this]; decide

theorem natDigits_head : ∀ (fuel n : Nat), 0 < n → n < fuel →
    ∃ c rest, natDigits fuel n = c :: rest ∧ c ≠ '0'
  | 0, _, _, h => by omega
  | fuel + 1, n, h0, h => by
    unfold natDigits
    split_ifs with h10
    · exact ⟨_, [], rfl, digitChar_ne_zero n h0⟩
    · obtain ⟨c, rest, hc, hne⟩ := natDigits_head fuel (n / 10) (by omega) (by omega)
      exact ⟨c, rest ++ [digitChar (n % 10)], by rw [hc]; rfl, hne⟩

theorem natText_cons (n : Nat) : ∃ c rest, natText n = c :: rest ∧
    (digitVal c).isSome = true ∧ (c = '0' → rest = []) := by
  by_cases h0 : n = 0
  · subst h0
    exact ⟨'0', [], rfl, rfl, fun _ => rfl⟩
  · obtain ⟨c, rest, hc, hne⟩ := natDigits_head (n + 1) n (by omega) (by omega)
    refine ⟨c, rest, hc, ?_, fun h => absurd h hne⟩
    exact natDigits_digit (n + 1) n c (by rw [hc]; simp)

theorem numValue_natText (n : Int) : numValue (decide (n < 0)) (natText n.natAbs) = some n := by
  obtain ⟨c, rest, hc, -, hz⟩ := natText_cons n.natAbs
  have hv : digitsValue (natText n.natAbs) = n.natAbs := natDigits_value _ _ (by omega)
  unfold numValue
  rw [hc] at hv ⊢
  simp only []
  have hlead : ¬ (c = '0' ∧ rest ≠ []) := fun h => h.2 (hz h.1)
  rw [if_neg hlead, hv]
  by_cases hn : n < 0
  · simp only [hn, decide_True, if_true]
    rw [if_neg (by omega)]
    congr 1
    omega
  · simp only [hn, decide_False]
    simp
    omega

theorem scan_inNum_digits (neg : Bool) : ∀ (ds' ds rest : List Char),
    (∀ c ∈ ds', (digitVal c).isSome = true) →
    scan (.inNum neg ds) (ds' ++ rest) = scan (.inNum neg (ds ++ ds')) rest
  | [], ds, rest, _ => by simp
  | c :: cs, ds, rest, h => by
    have hc : (digitVal c).isSome = true := h c (by simp)
    have ih := scan_inNum_digits neg cs (ds ++ [c]) rest (fun x hx => h x (by simp [hx]))
    have step : scan (.inNum neg ds) (c :: (cs ++ rest))
        = scan (.inNum neg (ds ++ [c])) (cs ++ rest) := by
      rw [scan, if_pos hc]
    rw [List.cons_append, step, ih, List.append_assoc]
    rfl

theorem scan_natText (n : Nat) (rest : List Char) :
    scan .idle (natText n ++ rest) = scan (.inNum false (natText n)) rest := by
  obtain ⟨c, cs, hc, hd, -⟩ := natText_cons n
  have hall : ∀ x ∈ cs, (digitVal x).isSome = true := fun x hx =>
    natDigits_digit (n + 1) n x (by rw [show natDigits (n + 1) n = c :: cs from hc]; simp [hx])
  obtain ⟨h1, h2, h3, h4, -⟩ := digit_not_special c hd
  have step : scan .idle (c :: (cs ++ rest)) = scan (.inNum false [c]) (cs ++ rest) := by
    rw [scan]
    simp only [h1, h2, h3, h4, hd, if_true, if_false, Bool.false_eq_true]
  rw [hc, List.cons_append, step, scan_inNum_digits false cs [c] rest hall]
  rfl

theorem scan_intText (n : Int) (rest : List Char) :
    scan .idle (intText n ++ rest) = scan (.inNum (decide (n < 0)) (natText n.natAbs)) rest := by
  unfold intText
  by_cases hn : n < 0
  · have hall : ∀ x ∈ natText n.natAbs, (digitVal x).isSome = true := fun x hx =>
      natDigits_digit _ _ x hx
    simp only [hn, if_true, decide_True, List.cons_append]
    have : scan .idle ('-' :: (natText n.natAbs ++ rest))
        = scan (.inNum true []) (natText n.natAbs ++ rest) := rfl
    rw [this, scan_inNum_digits true _ [] rest hall]
    rfl
  · simp only [hn, if_false, decide_False]
    exact scan_natText _ _

theorem map_cons_map {α β : Type} (o : Option α) (f : α → List β) (t : β) :
    (o.map f).map (t :: ·) = o.map (fun ts => t :: f ts) := by
  cases o <;> rfl

theorem scan_num_comma (neg : Bool) (ds rest : List Char) :
    scan (.inNum neg ds) (",\n\t\t".toList ++ rest)
      = (scan .idle rest).map (fun ts => Tok.num neg ds :: Tok.comma :: ts) := rfl

theorem scan_num_close (neg : Bool) (ds rest : List Char) :
    scan (.inNum neg ds) ("\n\t]".toList ++ rest)
      = (scan .idle rest).map (fun ts => Tok.num neg ds :: Tok.rbrack :: ts) := by
  show (((scan .idle rest).map (Tok.rbrack :: ·)).map (Tok.num neg ds :: ·)) = _
  rw [map_cons_map]

theorem scan_more : ∀ (xs : List Int) (neg : Bool) (ds rest : List Char),
    scan (.inNum neg ds)
        (((xs.map intText).flatMap fun y => ",\n\t\t".toList ++ y) ++ ("\n\t]".toList ++ rest))
      = (scan .idle rest).map (fun ts => Tok.num neg ds :: (moreToks xs ++ Tok.rbrack :: ts))
  | [], neg, ds, rest => by
    simp only [List.map_nil, List.flatMap_nil, List.nil_append, moreToks]
    exact scan_num_close neg ds rest
  | x :: xs, neg, ds, rest => by
    simp only [List.map_cons, List.flatMap_cons, List.append_assoc]
    rw [scan_num_comma, scan_intText, scan_more xs]
    cases scan .idle rest <;> rfl

theorem scan_arr (sl : Slice Int) (rest : List Char) :
    scan .idle (arrText (sl.map (List.map intText)) ++ rest)
      = (scan .idle rest).map (arrToks sl ++ ·) := by
  match sl with
  | none => rfl
  | some [] =>
    show ((scan .idle rest).map (Tok.rbrack :: ·)).map (Tok.lbrack :: ·) = _
    rw [map_cons_map]; rfl
  | some (x :: xs) =>
    simp only [Option.map_some', List.map_cons, arrText, List.append_assoc]
    have h0 : ∀ r, scan .idle ("[\n\t\t".toList ++ r) = (scan .idle r).map (Tok.lbrack :: ·) :=
      fun _ => rfl
    rw [h0, scan_intText, scan_more xs]
    cases scan .idle rest <;> simp [arrToks, numTok]

theorem allSome_floatText : ∀ (l : List Float64) (ts : List (List Char)),
    allSome (l.map floatText) = some ts →
    ∃ ns : List Int, l = ns.map Float64.ofInt ∧ ts = ns.map intText
  | [], ts, h => by
    simp only [List.map_nil, allSome, Option.some.injEq] at h
    exact ⟨[], rfl, h.symm⟩
  | .NaN :: l, ts, h => by simp [floatText, allSome] at h
  | .ofInt n :: l, ts, h => by
    simp only [List.map_cons, floatText, allSome, Option.map_eq_some'] at h
    obtain ⟨ts', h', rfl⟩ := h
    obtain ⟨ns, rfl, rfl⟩ := allSome_floatText l ts' h'
    exact ⟨n :: ns, rfl, rfl⟩

theorem floatTexts_some (sl : Slice Float64) (ts : Slice (List Char))
    (h : floatTexts sl = some ts) :
    ∃ il : Slice Int, sl = il.map (List.map Float64.ofInt) ∧ ts = il.map (List.map intText) := by
  match sl with
  | none =>
    simp only [floatTexts, Option.some.injEq] at h
    exact ⟨none, rfl, h.symm⟩
  | some l =>
    simp only [floatTexts, Option.map_eq_some'] at h
    obtain ⟨ts', h', rfl⟩ := h
    obtain ⟨ns, rfl, rfl⟩ := allSome_floatText l ts' h'
    exact ⟨some ns, rfl, rfl⟩

theorem map_ofInt_injective : Function.Injective (Option.map (List.map Float64.ofInt)) := by
  apply Option.map_injective
  apply List.map_injective_iff.mpr
  intro a b h
  cases h
  rfl

theorem marshalText_some (v : jsonStruct Float64) (text : List Char)
    (h : marshalText v = some text) :
    ∃ b r : Slice Int, v = docValue b r v.TotalTime ∧ text = docText b r v.TotalTime := by
  unfold marshalText at h
  split at h
  · rename_i tb tr hb hr
    obtain ⟨b, hb1, rfl⟩ := floatTexts_some _ _ hb
    obtain ⟨r, hr1, rfl⟩ := floatTexts_some _ _ hr
    simp only [Option.some.injEq] at h
    refine ⟨b, r, ?_, h.symm⟩
    cases v
    simp only [docValue] at hb1 hr1 ⊢
    rw [hb1, hr1]
  · simp at h

theorem marshalText_docValue (b r t : Slice Int) :
    marshalText (docValue b r t) = some (docText b r t) := by
  have hf : ∀ il : Slice Int, floatTexts (il.map (List.map Float64.ofInt))
      = some (il.map (List.map intText)) := by
    intro il
    match il with
    | none => rfl
    | some l =>
      simp only [Option.map_some', floatTexts]
      have : allSome ((l.map Float64.ofInt).map floatText) = some (l.map intText) := by
        induction l with
        | nil => rfl
        | cons x xs ih =>
          simp only [List.map_cons, floatText, allSome, ih, Option.map_some']
      rw [this]; rfl
  simp only [marshalText, docValue, hf, docText]

theorem scan_doc (b r t : Slice Int) (tail : List Char) :
    scan .idle (docText b r t ++ tail) = (scan .idle tail).map (docToks b r t ++ ·) := by
  have h1 : ∀ x, scan .idle ("\x7b\n\t\"totalBorrow\": ".toList ++ x)
      = (scan .idle x).map (fun ts => Tok.lbrace :: Tok.str "totalBorrow".toList :: Tok.colon :: ts) := by
    intro x; simp [scan, isWs, punct, digitVal]; rfl
  have h2 : ∀ x, scan .idle (",\n\t\"totalRepay\": ".toList ++ x)
      = (scan .idle x).map (fun ts => Tok.comma :: Tok.str "totalRepay".toList :: Tok.colon :: ts) := by
    intro x; simp [scan, isWs, punct, digitVal]; rfl
  have h3 : ∀ x, scan .idle (",\n\t\"totalTime\": ".toList ++ x)
      = (scan .idle x).map (fun ts => Tok.comma :: Tok.str "totalTime".toList :: Tok.colon :: ts) := by
    intro x; simp [scan, isWs, punct, digitVal]; rfl
  have h4 : ∀ x, scan .idle ("\n\x7d".toList ++ x) = (scan .idle x).map (Tok.rbrace :: ·) :=
    fun _ => rfl
  simp only [docText, List.append_assoc]
  rw [h1, scan_arr, h2, scan_arr, h3, scan_arr, h4]
  cases scan .idle tail <;> simp [docToks]

theorem parseElems_more : ∀ (xs : List Int) (rest : List Tok),
    parseElems (moreToks xs ++ .rbrack :: rest) = some (xs, rest)
  | [], rest => rfl
  | x :: xs, rest => by
    have ih := parseElems_more xs rest
    have step : moreToks (x :: xs) ++ Tok.rbrack :: rest
        = Tok.comma :: Tok.num (decide (x < 0)) (natText x.natAbs)
            :: (moreToks xs ++ Tok.rbrack :: rest) := by
      simp [moreToks, numTok]
    rw [step, parseElems, numValue_natText, ih]

theorem parseArr_toks (sl : Slice Int) (rest : List Tok) :
    parseArr (arrToks sl ++ rest) = some (sl, rest) := by
  match sl with
  | none => rfl
  | some [] => rfl
  | some (x :: xs) =>
    have step : arrToks (some (x :: xs)) ++ rest
        = Tok.lbrack :: Tok.num (decide (x < 0)) (natText x.natAbs)
            :: (moreToks xs ++ Tok.rbrack :: rest) := by
      simp [arrToks, numTok]
    rw [step, parseArr, numValue_natText, parseElems_more]

theorem parseDoc_toks (b r t : Slice Int) (tt : List Tok) :
    parseDoc (docToks b r t ++ tt) = if tt = [] then some (docValue b r t) else none := by
  simp only [docToks, List.cons_append, List.append_assoc, parseDoc, parseField, if_true,
    parseArr_toks, List.singleton_append]
  cases tt <;> simp [docValue]

theorem goJson_Unmarshal_docText (b r t : Slice Int) (tail : List Char) :
    goJson.Unmarshal (docText b r t ++ tail)
      = if scan .idle tail = some [] then .ok (docValue b r t) else .error .syntaxError := by
  simp only [goJson, scan_doc]
  cases h : scan .idle tail with
  | none => simp
  | some tt =>
    simp only [Option.map_some', Option.some_bind, parseDoc_toks, Option.some.injEq]
    by_cases htt : tt = []
    · simp [htt]
    · simp [htt]

theorem arrText_length_append (sl : Slice Int) (x : Int) :
    (arrText (sl.map (List.map intText))).length
      ≤ (arrText ((Slice.append sl x).map (List.map intText))).length := by
  match sl with
  | none => simp [Slice.append, Slice.elems, arrText]
  | some [] => simp [Slice.append, Slice.elems, arrText]
  | some (a :: l) =>
    simp [Slice.append, Slice.elems, arrText, List.flatMap_append]

theorem docText_length (b r t : Slice Int) :
    (docText b r t).length = 53 + (arrText (b.map (List.map intText))).length
      + (arrText (r.map (List.map intText))).length
      + (arrText (t.map (List.map intText))).length := by
  simp [docText]
  omega

theorem append_ofInt (sl : Slice Int) (n : Int) :
    Slice.append (sl.map (List.map Float64.ofInt)) (Float64.ofInt n)
      = (Slice.append sl n).map (List.map Float64.ofInt) := by
  cases sl <;> simp [Slice.append, Slice.elems]

theorem allSome_snoc_none {α : Type} : ∀ l : List (Option α), allSome (l ++ [none]) = none
  | [] => rfl
  | none :: _ => rfl
  | some x :: l => by simp [allSome, allSome_snoc_none l]

theorem floatTexts_append_NaN (sl : Slice Float64) : floatTexts (Slice.append sl .NaN) = none := by
  simp [Slice.append, floatTexts, floatText, allSome_snoc_none]

theorem marshalText_observe (b r t : Slice Int) (xb xr : Float64) (now : Int) (text : List Char)
    (h : marshalText ((docValue b r t).observe xb xr now) = some text) :
    ∃ nb nr : Int, xb = .ofInt nb ∧ xr = .ofInt nr ∧
      text = docText (Slice.append b nb) (Slice.append r nr) (Slice.append t now) := by
  cases xb with
  | NaN => simp [marshalText, jsonStruct.observe, docValue, floatTexts_append_NaN] at h
  | ofInt nb =>
    cases xr with
    | NaN =>
      simp only [marshalText, jsonStruct.observe, docValue, floatTexts_append_NaN] at h
      split at h <;> simp_all
    | ofInt nr =>
      refine ⟨nb, nr, rfl, rfl, ?_⟩
      have : (docValue b r t).observe (.ofInt nb) (.ofInt nr) now
          = docValue (Slice.append b nb) (Slice.append r nr) (Slice.append t now) := by
        simp [jsonStruct.observe, docValue, append_ofInt]
      rw [this, marshalText_docValue] at h
      exact (Option.some.inj h).symm

theorem goJson_MarshalIndent_eq (v : jsonStruct Float64) (text : Bytes) :
    goJson.MarshalIndent v = .ok text ↔ marshalText v = some text := by
  simp only [goJson]
  cases marshalText v <;> simp

/-- The concrete codec satisfies every law. -/
theorem goJson_lawful : goJson.Lawful where
  marshal_zero := ⟨_, rfl⟩
  roundtrip := by
    intro v text h
    obtain ⟨b, r, hv, rfl⟩ := marshalText_some v text ((goJson_MarshalIndent_eq v text).mp h)
    have := goJson_Unmarshal_docText b r v.TotalTime []
    rw [List.append_nil] at this
    rw [this, ← hv]
    rfl
  complete := by
    intro v text tail w h hw
    obtain ⟨b, r, hv, rfl⟩ := marshalText_some v text ((goJson_MarshalIndent_eq v text).mp h)
    rw [goJson_Unmarshal_docText] at hw
    split_ifs at hw
    rw [hv]
    exact (Except.ok.inj hw).symm
  grows := by
    intro v xb xr now text text' h h'
    obtain ⟨b, r, hv, rfl⟩ := marshalText_some v text ((goJson_MarshalIndent_eq v text).mp h)
    rw [hv] at h'
    obtain ⟨nb, nr, -, -, rfl⟩ :=
      marshalText_observe b r v.TotalTime xb xr now text' ((goJson_MarshalIndent_eq _ _).mp h')
    rw [docText_length, docText_length]
    have h1 := arrText_length_append b nb
    have h2 := arrText_length_append r nr
    have h3 := arrText_length_append v.TotalTime now
    omega

/-! ## The store, operation by operation -/

theorem FS.set_same (fs : FS) (name : String) (content : Bytes) :
    (fs.set name content) name = some content := by
  simp [FS.set]

theorem FS.set_other (fs : FS) (name other : String) (content : Bytes) (h : other ≠ name) :
    (fs.set name content) other = fs other := by
  simp [FS.set, h]

theorem FS.set_set (fs : FS) (name : String) (a b : Bytes) :
    (fs.set name a).set name b = fs.set name b := by
  funext n
  by_cases h : n = name <;> simp [FS.set, h]

theorem overwrite_nil (content : Bytes) : overwrite [] content = content := by
  simp [overwrite]

theorem overwrite_of_le (old content : Bytes) (h : old.length ≤ content.length) :
    overwrite old content = content := by
  simp [overwrite, List.drop_eq_nil_of_le h]

theorem fileName_injective : Function.Injective fileName := by
  intro a b h
  have h' := congrArg String.data h
  simp only [fileName, String.data_append, List.append_assoc] at h'
  have h1 := List.append_cancel_left h'
  have h2 := List.append_cancel_right h1
  exact String.ext h2

theorem readJson_file {F : Type} (J : Json F) (fs : FS) (coin : String) (content : Bytes)
    (h : fs (fileName coin) = some content) :
    readJson J fs coin = (J.Unmarshal content, fs) := by
  simp only [readJson, os.ReadFile, h]
  cases J.Unmarshal content <;> rfl

theorem readJson_absent {F : Type} (J : Json F) (fs : FS) (coin : String) (text : Bytes)
    (h : fs (fileName coin) = none) (hz : J.MarshalIndent jsonStruct.zero = .ok text) :
    readJson J fs coin = (J.Unmarshal text, fs.set (fileName coin) text) := by
  simp only [readJson, os.ReadFile, h, os.Create, hz, if_true, os.Write, FS.set_set,
    overwrite_nil, readJson.reread, FS.set_same]
  cases J.Unmarshal text <;> rfl

theorem readJson_absent_error {F : Type} (J : Json F) (fs : FS) (coin : String) (err : GoError)
    (h : fs (fileName coin) = none) (hz : J.MarshalIndent jsonStruct.zero = .error err) :
    readJson J fs coin = (.error err, fs.set (fileName coin) []) := by
  simp only [readJson, os.ReadFile, h, os.Create, hz, if_true]

theorem writeJson_file {F : Type} (J : Json F) (fs : FS) (v : jsonStruct F) (coin : String)
    (old text : Bytes) (h : fs (fileName coin) = some old) (hm : J.MarshalIndent v = .ok text) :
    writeJson J fs v coin = (.ok (), fs.set (fileName coin) (overwrite old text)) := by
  simp only [writeJson, os.OpenFile, h, hm, os.Write]

theorem writeJson_error {F : Type} (J : Json F) (fs : FS) (v : jsonStruct F) (coin : String)
    (err : GoError) (h : (writeJson J fs v coin).1 = .error err) :
    (writeJson J fs v coin).2 = fs := by
  unfold writeJson at h ⊢
  cases h1 : os.OpenFile fs (fileName coin) with
  | error e => rfl
  | ok old =>
    simp only [h1] at h ⊢
    cases h2 : J.MarshalIndent v with
    | error e => rfl
    | ok text => simp [h2] at h

/-- A load that succeeds leaves a record that decodes to what it returned. -/
theorem readJson_ok {F : Type} (J : Json F) (fs : FS) (coin : String) (data : jsonStruct F)
    (h : (readJson J fs coin).1 = .ok data) :
    ∃ content, (readJson J fs coin).2 (fileName coin) = some content ∧
      J.Unmarshal content = .ok data ∧
      (fs (fileName coin) = some content ∨
        (fs (fileName coin) = none ∧ J.MarshalIndent jsonStruct.zero = .ok content)) ∧
      (readJson J fs coin).2 = fs.set (fileName coin) content := by
  cases hf : fs (fileName coin) with
  | some content =>
    rw [readJson_file J fs coin content hf] at h ⊢
    refine ⟨content, hf, h, Or.inl rfl, ?_⟩
    funext n
    by_cases hn : n = fileName coin
    · subst hn; simp [FS.set, hf]
    · simp [FS.set, hn]
  | none =>
    cases hz : J.MarshalIndent jsonStruct.zero with
    | error err =>
      rw [readJson_absent_error J fs coin err hf hz] at h
      cases h
    | ok text =>
      rw [readJson_absent J fs coin text hf hz] at h ⊢
      exact ⟨text, FS.set_same _ _ _, h, Or.inr ⟨rfl, rfl⟩, rfl⟩

/-- A load changes nothing but, at most, the file of its coin, and only when absent. -/
theorem readJson_frame {F : Type} (J : Json F) (fs : FS) (coin : String) (name : String)
    (h : name ≠ fileName coin ∨ fs (fileName coin) ≠ none) :
    (readJson J fs coin).2 name = fs name := by
  cases hf : fs (fileName coin) with
  | some content => rw [readJson_file J fs coin content hf]
  | none =>
    have hne : name ≠ fileName coin := by
      rcases h with h | h
      · exact h
      · exact absurd hf h
    cases hz : J.MarshalIndent jsonStruct.zero with
    | error err =>
      rw [readJson_absent_error J fs coin err hf hz]
      exact FS.set_other _ _ _ _ hne
    | ok text =>
      rw [readJson_absent J fs coin text hf hz]
      exact FS.set_other _ _ _ _ hne

theorem foldl_snoc_map {α β : Type} (f : α → β) : ∀ (l : List α) (init : List β),
    l.foldl (fun acc x => acc ++ [f x]) init = init ++ l.map f
  | [], init => by simp
  | x :: xs, init => by
    simp only [List.foldl_cons, List.map_cons]
    rw [foldl_snoc_map f xs]
    simp

theorem getLineItems_ok {F : Type} (J : Json F) (format : Int → String) (fs : FS)
    (coinName : String) (data : jsonStruct F) (h : (readJson J fs coinName).1 = .ok data) :
    (getLineItems J format fs coinName).1 =
      { items1 := data.TotalBorrow.elems.map LineData.mk
        items2 := data.TotalRepay.elems.map LineData.mk
        times := data.TotalTime.elems.map format
        err := none } := by
  unfold getLineItems
  cases hr : readJson J fs coinName with
  | mk res fs1 =>
    rw [hr] at h
    simp only at h
    subst h
    simp [foldl_snoc_map]

theorem work_cycle_error {F : Type} (J : Json F) (st : State) (env : CycleEnv F) (err : GoError)
    (h : env.response = .error err) : work.cycle J st env = (st, .fetchFailed) := by
  simp [work.cycle, h]

theorem work_cycle_stale {F : Type} (J : Json F) (st : State) (env : CycleEnv F)
    (snap : Snapshot F) (h : env.response = .ok snap) (hle : snap.calculationTime ≤ st.oldD) :
    work.cycle J st env = (st, .waiting) := by
  simp [work.cycle, h, not_lt.mpr hle]

theorem work_cycle_accept {F : Type} (J : Json F) (st : State) (env : CycleEnv F)
    (snap : Snapshot F) (h : env.response = .ok snap) (hlt : st.oldD < snap.calculationTime) :
    work.cycle J st env =
      ({ fs := (work.coins J st.fs (timed snap.coins env.clock)).1, oldD := snap.calculationTime },
        .ok (work.coins J st.fs (timed snap.coins env.clock)).2) := by
  simp [work.cycle, h, hlt]

theorem work_cycle_oldD_le {F : Type} (J : Json F) (st : State) (env : CycleEnv F) :
    st.oldD ≤ (work.cycle J st env).1.oldD := by
  cases hr : env.response with
  | error err => rw [work_cycle_error J st env err hr]
  | ok snap =>
    by_cases hlt : st.oldD < snap.calculationTime
    · rw [work_cycle_accept J st env snap hr hlt]
      exact le_of_lt hlt
    · rw [work_cycle_stale J st env snap hr (not_lt.mp hlt)]

theorem work_loop_append {F : Type} (J : Json F) : ∀ (envs : List (CycleEnv F)) (st : State)
    (env : CycleEnv F),
    (work.loop J st (envs ++ [env])).1 = (work.cycle J (work.loop J st envs).1 env).1
  | [], st, env => rfl
  | e :: envs, st, env => by
    simp only [List.cons_append, work.loop]
    exact work_loop_append J envs _ env

theorem work_loop_chain {F : Type} (J : Json F) : ∀ (envs : List (CycleEnv F)) (st : State),
    List.Chain (· < ·) st.oldD (acceptedTimes envs (work.loop J st envs).2)
  | [], st => List.Chain.nil
  | env :: envs, st => by
    have ih := work_loop_chain J envs (work.cycle J st env).1
    simp only [work.loop]
    cases hr : env.response with
    | error err =>
      rw [work_cycle_error J st env err hr] at ih ⊢
      simpa [acceptedTimes] using ih
    | ok snap =>
      by_cases hlt : st.oldD < snap.calculationTime
      · rw [work_cycle_accept J st env snap hr hlt] at ih ⊢
        simp only [acceptedTimes, hr]
        exact List.Chain.cons hlt ih
      · rw [work_cycle_stale J st env snap hr (not_lt.mp hlt)] at ih ⊢
        simpa [acceptedTimes] using ih

/-! ## Cycles that are not accepted -/

/-- C2. A cycle whose request fails, or whose snapshot has a `calculationTime` not above
`oldD`, returns the state it was given: the directory is the same function (every
record byte for byte, no record created) and `oldD` is unchanged. -/
theorem work_cycle_rejected_noop {F : Type} (J : Json F) (st : State) (env : CycleEnv F)
    (h : (∃ err, env.response = .error err) ∨
      (∃ snap, env.response = .ok snap ∧ snap.calculationTime ≤ st.oldD)) :
    (work.cycle J st env).1 = st ∧ (work.cycle J st env).1.fs = st.fs ∧
      (work.cycle J st env).1.oldD = st.oldD := by
  have hst : (work.cycle J st env).1 = st := by
    rcases h with ⟨err, he⟩ | ⟨snap, hs, hle⟩
    · rw [work_cycle_error J st env err he]
    · rw [work_cycle_stale J st env snap hs hle]
  exact ⟨hst, by rw [hst], by rw [hst]⟩

theorem work_cycle_rejected_noop_witness :
    ((∃ err, (envOf (snapBtc 100)).response = .error err) ∨
      (∃ snap, (envOf (snapBtc 100)).response = .ok snap ∧
        snap.calculationTime ≤ (State.mk (fsBtc btcOneText) 100).oldD)) ∧
    (work.cycle goJson ⟨fsBtc btcOneText, 100⟩ (envOf (snapBtc 100))).1.fs (fileName "BTC")
      = some btcOneText :=
  ⟨Or.inr ⟨snapBtc 100, rfl, by decide⟩,
    by rw [(work_cycle_rejected_noop goJson ⟨fsBtc btcOneText, 100⟩ (envOf (snapBtc 100))
      (Or.inr ⟨snapBtc 100, rfl, by decide⟩)).2.1]; rfl⟩

/-! ## Loading an existing record -/

/-- C6. When the file of a coin exists, `readJson` returns the directory unchanged; its
result is the decoded content when the content decodes and the decoding error otherwise. -/
theorem readJson_existing {F : Type} (J : Json F) (fs : FS) (coin : String) (content : Bytes)
    (h : fs (fileName coin) = some content) :
    (readJson J fs coin).2 = fs ∧
      (∀ v, J.Unmarshal content = .ok v → (readJson J fs coin).1 = .ok v) ∧
      (∀ err, J.Unmarshal content = .error err → (readJson J fs coin).1 = .error err) := by
  rw [readJson_file J fs coin content h]
  exact ⟨rfl, fun v hv => hv, fun err he => he⟩

theorem readJson_existing_witness :
    fsBtc btcCut (fileName "BTC") = some btcCut ∧
    (readJson goJson (fsBtc btcCut) "BTC").2 = fsBtc btcCut ∧
    (readJson goJson (fsBtc btcCut) "BTC").1 = .error .syntaxError :=
  ⟨by decide,
    (readJson_existing goJson (fsBtc btcCut) "BTC" btcCut (by decide)).1,
    (readJson_existing goJson (fsBtc btcCut) "BTC" btcCut (by decide)).2.2 .syntaxError rfl⟩

/-! ## The first cycle -/

/-- C8 as the code has it.  In the first cycle after start `oldD` is the clock reading at
start: a fetched snapshot is accepted when its `calculationTime` is above that reading
(every entry is attempted once and `oldD` becomes the `calculationTime`), and otherwise
the cycle logs `waiting` and changes nothing. -/
theorem work_first_cycle {F : Type} (J : Json F) (fs : FS) (startNow : Int)
    (snap : Snapshot F) (clock : Nat → Int) :
    (startNow < snap.calculationTime →
      (work J fs startNow [⟨.ok snap, clock⟩]).1.oldD = snap.calculationTime ∧
      (work J fs startNow [⟨.ok snap, clock⟩]).1.fs
        = (work.coins J fs (timed snap.coins clock)).1 ∧
      (work J fs startNow [⟨.ok snap, clock⟩]).2
        = [.ok (work.coins J fs (timed snap.coins clock)).2]) ∧
    (snap.calculationTime ≤ startNow →
      (work J fs startNow [⟨.ok snap, clock⟩]).1.fs = fs ∧
      (work J fs startNow [⟨.ok snap, clock⟩]).1.oldD = startNow ∧
      (work J fs startNow [⟨.ok snap, clock⟩]).2 = [.waiting]) := by
  constructor
  · intro hlt
    simp only [work, work.loop]
    rw [work_cycle_accept J ⟨fs, startNow⟩ ⟨.ok snap, clock⟩ snap rfl hlt]
    exact ⟨rfl, rfl, rfl⟩
  · intro hle
    simp only [work, work.loop]
    rw [work_cycle_stale J ⟨fs, startNow⟩ ⟨.ok snap, clock⟩ snap rfl hle]
    exact ⟨rfl, rfl, rfl⟩

theorem work_first_cycle_witness :
    (1000 : Int) < (snapBtc 1700000000000).calculationTime ∧
    (work goJson FS.empty 1000 [⟨.ok (snapBtc 1700000000000), fun _ => 1000⟩]).1.oldD
      = 1700000000000 :=
  ⟨by decide,
    ((work_first_cycle goJson FS.empty 1000 (snapBtc 1700000000000) (fun _ => 1000)).1
      (by decide)).1⟩

/-- C8 as the specification has it fails: started at clock reading 1000, a first snapshot
with `calculationTime` 500 is not accepted; the cycle logs `waiting`, `oldD` stays 1000
and no record of BTC is written. -/
theorem work_first_cycle_can_wait :
    (work goJson FS.empty 1000 [⟨.ok (snapBtc 500), fun _ => 1000⟩]).2 = [.waiting] ∧
    (work goJson FS.empty 1000 [⟨.ok (snapBtc 500), fun _ => 1000⟩]).1.oldD = 1000 ∧
    (work goJson FS.empty 1000 [⟨.ok (snapBtc 500), fun _ => 1000⟩]).1.fs (fileName "BTC")
      = none :=
  ⟨rfl, rfl, rfl⟩

/-! ## Monotonic acceptance -/

/-- C9. Over any run of `work` the `calculationTime` values of the accepted snapshots
form a strictly increasing chain that starts above the clock reading at start, `oldD`
is never below that reading, and one more cycle never lowers `oldD`. -/
theorem work_accepts_increasing {F : Type} (J : Json F) (fs : FS) (startNow : Int)
    (envs : List (CycleEnv F)) :
    List.Chain (· < ·) startNow (acceptedTimes envs (work J fs startNow envs).2) ∧
    (∀ env, (work J fs startNow envs).1.oldD ≤ (work J fs startNow (envs ++ [env])).1.oldD) ∧
    startNow ≤ (work J fs startNow envs).1.oldD := by
  refine ⟨work_loop_chain J envs ⟨fs, startNow⟩, ?_, ?_⟩
  · intro env
    simp only [work]
    rw [work_loop_append]
    exact work_cycle_oldD_le J _ env
  · simp only [work]
    induction envs using List.reverseRecOn with
    | nil => exact le_refl _
    | append_singleton envs env ih =>
      rw [work_loop_append]
      exact le_trans ih (work_cycle_oldD_le J _ env)

/-! ## Rendering -/

/-- C10. When the record of a coin loads and its three slices have length `n`,
`getLineItems` returns no error and three lists of length `n`: the borrow values, the
repay values and the formatted times, each in stored order; the chart of
`generateChart` carries exactly these lists.  For `n = 0` the three lists are empty. -/
theorem getLineItems_aligned {F : Type} (J : Json F) (format : Int → String) (fs : FS)
    (coinName : String) (data : jsonStruct F) (n : Nat)
    (hload : (readJson J fs coinName).1 = .ok data)
    (hb : data.TotalBorrow.len = n) (hr : data.TotalRepay.len = n)
    (ht : data.TotalTime.len = n) :
    (getLineItems J format fs coinName).1.err = none ∧
    (getLineItems J format fs coinName).1.items1.length = n ∧
    (getLineItems J format fs coinName).1.items2.length = n ∧
    (getLineItems J format fs coinName).1.times.length = n ∧
    (getLineItems J format fs coinName).1.items1 = data.TotalBorrow.elems.map LineData.mk ∧
    (getLineItems J format fs coinName).1.items2 = data.TotalRepay.elems.map LineData.mk ∧
    (getLineItems J format fs coinName).1.times = data.TotalTime.elems.map format ∧
    (generateChart J format fs coinName).1 = .ok
      { coinName := coinName, XAxis := data.TotalTime.elems.map format,
        Series := [("Borrowed", data.TotalBorrow.elems.map LineData.mk),
                   ("Payed", data.TotalRepay.elems.map LineData.mk)] } ∧
    (n = 0 → (getLineItems J format fs coinName).1.items1 = [] ∧
      (getLineItems J format fs coinName).1.items2 = [] ∧
      (getLineItems J format fs coinName).1.times = []) := by
  have h := getLineItems_ok J format fs coinName data hload
  have hg : (generateChart J format fs coinName).1 = .ok
      { coinName := coinName, XAxis := data.TotalTime.elems.map format,
        Series := [("Borrowed", data.TotalBorrow.elems.map LineData.mk),
                   ("Payed", data.TotalRepay.elems.map LineData.mk)] } := by
    unfold generateChart
    cases hq : getLineItems J format fs coinName with
    | mk r fs1 =>
      rw [hq] at h
      simp only at h
      subst h
      rfl
  rw [h]
  simp only [Slice.len] at hb hr ht
  refine ⟨rfl, by simp [hb], by simp [hr], by simp [ht], rfl, rfl, rfl, hg, ?_⟩
  intro h0
  subst h0
  simp only [List.length_eq_zero] at hb hr ht
  simp [hb, hr, ht]

theorem getLineItems_aligned_witness :
    (readJson goJson (fsBtc btcTwoText) "BTC").1 = .ok btcTwo ∧
    (getLineItems goJson (fun t => toString t) (fsBtc btcTwoText) "BTC").1.items1
      = [⟨.ofInt 5⟩, ⟨.ofInt 7⟩] ∧
    (getLineItems goJson (fun t => toString t) (fsBtc btcTwoText) "BTC").1.times.length = 2 :=
  ⟨rfl,
    (getLineItems_aligned goJson (fun t => toString t) (fsBtc btcTwoText) "BTC" btcTwo 2
      rfl rfl rfl rfl).2.2.2.2.1,
    (getLineItems_aligned goJson (fun t => toString t) (fsBtc btcTwoText) "BTC" btcTwo 2
      rfl rfl rfl rfl).2.2.2.1⟩

/-! ## One entry of a snapshot -/

/-- What the loop body does for one coin: either it logs an error and the directory is the
one the load left, or it writes the text of the loaded series with the observation appended
at offset 0 of the record. -/
theorem work_coin_spec {F : Type} (J : Json F) (fs : FS) (coin : Coin F) (now : Int) :
    ((work.coin J fs coin now).2 = false ∧
      (work.coin J fs coin now).1 = (readJson J fs coin.asset).2) ∨
    ((work.coin J fs coin now).2 = true ∧
      ∃ data old text, (readJson J fs coin.asset).1 = .ok data ∧
        (readJson J fs coin.asset).2 (fileName coin.asset) = some old ∧
        J.Unmarshal old = .ok data ∧
        J.MarshalIndent (data.observe coin.totalBorrowInUsdt coin.totalRepayInUsdt now)
          = .ok text ∧
        (work.coin J fs coin now).1
          = (readJson J fs coin.asset).2.set (fileName coin.asset) (overwrite old text)) := by
  unfold work.coin
  cases hr : readJson J fs coin.asset with
  | mk res fs1 =>
    cases res with
    | error err => exact Or.inl ⟨rfl, rfl⟩
    | ok data =>
      have hres : (readJson J fs coin.asset).1 = .ok data := by rw [hr]
      obtain ⟨old, hold, hdec, -, -⟩ := readJson_ok J fs coin.asset data hres
      rw [hr] at hold
      simp only at hold
      cases hm : J.MarshalIndent
          (data.observe coin.totalBorrowInUsdt coin.totalRepayInUsdt now) with
      | error err =>
        left
        have hw : writeJson J fs1
            (data.observe coin.totalBorrowInUsdt coin.totalRepayInUsdt now) coin.asset
            = (.error err, fs1) := by
          simp only [writeJson, os.OpenFile, hold, hm]
        simp only [jsonStruct.observe] at hw
        exact ⟨by simp only [hw], by simp only [hw]⟩
      | ok text =>
        right
        have hw := writeJson_file J fs1 _ coin.asset old text hold hm
        simp only [jsonStruct.observe] at hw
        exact ⟨by simp only [hw], data, old, text, rfl, hold, hdec, hm, by simp only [hw]⟩

/-! ## Save then load -/

/-- When the record is not longer than the text of `v`, a save of `v` leaves exactly that
text and the next load returns `v`. -/
theorem writeJson_readJson_of_le {F : Type} (J : Json F) (hJ : J.Lawful) (fs : FS)
    (v : jsonStruct F) (coin : String) (old text : Bytes)
    (h : fs (fileName coin) = some old) (hm : J.MarshalIndent v = .ok text)
    (hle : old.length ≤ text.length) :
    (writeJson J fs v coin).1 = .ok () ∧
    (writeJson J fs v coin).2 = fs.set (fileName coin) text ∧
    (readJson J (writeJson J fs v coin).2 coin).1 = .ok v := by
  rw [writeJson_file J fs v coin old text h hm, overwrite_of_le old text hle]
  refine ⟨rfl, rfl, ?_⟩
  rw [readJson_file J _ coin text (FS.set_same _ _ _)]
  exact hJ.roundtrip v text hm

/-- C3 fails on the code.  The record of BTC holds the text of two observations; saving the
series of one observation succeeds, but the file is opened without truncation, so the
last bytes of the old text stay behind the new text and the next load fails. -/
theorem writeJson_readJson_shorter :
    (fsBtc btcTwoText) (fileName "BTC") = some btcTwoText ∧
    goJson.MarshalIndent btcOne = .ok btcOneText ∧
    (writeJson goJson (fsBtc btcTwoText) btcOne "BTC").1 = .ok () ∧
    (writeJson goJson (fsBtc btcTwoText) btcOne "BTC").2 (fileName "BTC")
      = some (btcOneText ++ "00000,\n\t\t1700000060\n\t]\n\x7d".toList) ∧
    (readJson goJson (writeJson goJson (fsBtc btcTwoText) btcOne "BTC").2 "BTC").1
      = .error .syntaxError ∧
    (readJson goJson (writeJson goJson (fsBtc btcTwoText) btcOne "BTC").2 "BTC").1
      ≠ .ok btcOne := by
  set_option maxRecDepth 100000 in
  exact ⟨by decide, rfl, rfl, by decide, rfl, by
    have h : (readJson goJson (writeJson goJson (fsBtc btcTwoText) btcOne "BTC").2 "BTC").1
        = .error .syntaxError := rfl
    rw [h]
    exact fun h' => Except.noConfusion h'⟩

/-! ## An accepted cycle -/

/-- C1 fails on the code.  The record of BTC holds one observation, written with four
spaces per level where `MarshalIndent` prints a tab: the load returns the series, the
cycle is accepted and load and save succeed, but the new text is shorter than the record
and the file is not truncated, so the stored record no longer decodes. -/
theorem work_cycle_accept_oversized :
    (readJson goJson (fsBtc btcOneSpaces) "BTC").1 = .ok btcOne ∧
    (work.cycle goJson ⟨fsBtc btcOneSpaces, 100⟩ (envOf (snapBtc 150))).2 = .ok [true] ∧
    (work.cycle goJson ⟨fsBtc btcOneSpaces, 100⟩ (envOf (snapBtc 150))).1.fs (fileName "BTC")
      = some (btcTwoText ++ "0000\n    ]\n\x7d".toList) ∧
    stored goJson (work.cycle goJson ⟨fsBtc btcOneSpaces, 100⟩ (envOf (snapBtc 150))).1.fs "BTC"
      = none ∧
    stored goJson (work.cycle goJson ⟨fsBtc btcOneText, 100⟩ (envOf (snapBtc 150))).1.fs "BTC"
      = some btcTwo := by
  set_option maxRecDepth 100000 in
  exact ⟨rfl, rfl, by decide, rfl, rfl⟩

theorem work_coin_file {F : Type} (J : Json F) (fs : FS) (coin : Coin F) (now : Int)
    (content : Bytes) (h : fs (fileName coin.asset) = some content) :
    work.coin J fs coin now
      = (fs.set (fileName coin.asset) (entryResult J content coin now).1,
          (entryResult J content coin now).2) := by
  have hself : fs.set (fileName coin.asset) content = fs := by
    funext n
    by_cases hn : n = fileName coin.asset
    · subst hn; simp [FS.set, h]
    · simp [FS.set, hn]
  unfold work.coin entryResult
  rw [readJson_file J fs coin.asset content h]
  cases hu : J.Unmarshal content with
  | error err => simp only [hself]
  | ok data =>
    simp only []
    cases hm : J.MarshalIndent
        (data.observe coin.totalBorrowInUsdt coin.totalRepayInUsdt now) with
    | error err =>
      have hw : writeJson J fs
          (data.observe coin.totalBorrowInUsdt coin.totalRepayInUsdt now) coin.asset
          = (.error err, fs) := by
        simp only [writeJson, os.OpenFile, h, hm]
      simp only [jsonStruct.observe] at hw
      simp only [hw, hself]
    | ok text =>
      have hw := writeJson_file J fs _ coin.asset content text h hm
      simp only [jsonStruct.observe] at hw
      simp only [hw]

theorem work_coin_absent {F : Type} (J : Json F) (fs : FS) (coin : Coin F) (now : Int)
    (text : Bytes) (h : fs (fileName coin.asset) = none)
    (hz : J.MarshalIndent jsonStruct.zero = .ok text) :
    work.coin J fs coin now = work.coin J (fs.set (fileName coin.asset) text) coin now := by
  unfold work.coin
  rw [readJson_absent J fs coin.asset text h hz,
    readJson_file J _ coin.asset text (FS.set_same _ _ _)]

theorem work_coin_absent_error {F : Type} (J : Json F) (fs : FS) (coin : Coin F) (now : Int)
    (err : GoError) (h : fs (fileName coin.asset) = none)
    (hz : J.MarshalIndent jsonStruct.zero = .error err) :
    work.coin J fs coin now = (fs.set (fileName coin.asset) [], false) := by
  unfold work.coin
  rw [readJson_absent_error J fs coin.asset err h hz]

/-- The loop body touches the file of its coin only, and what it leaves there depends on
what that file held only. -/
theorem work_coin_local {F : Type} (J : Json F) (fs : FS) (coin : Coin F) (now : Int) :
    (work.coin J fs coin now).1 (fileName coin.asset)
        = (recordAfter J (fs (fileName coin.asset)) coin now).1 ∧
    (work.coin J fs coin now).2 = (recordAfter J (fs (fileName coin.asset)) coin now).2 ∧
    ∀ name, name ≠ fileName coin.asset → (work.coin J fs coin now).1 name = fs name := by
  cases hf : fs (fileName coin.asset) with
  | some content =>
    rw [work_coin_file J fs coin now content hf]
    exact ⟨FS.set_same _ _ _, rfl, fun name hn => FS.set_other _ _ _ _ hn⟩
  | none =>
    cases hz : J.MarshalIndent jsonStruct.zero with
    | error err =>
      rw [work_coin_absent_error J fs coin now err hf hz]
      simp only [recordAfter, hz]
      exact ⟨FS.set_same _ _ _, trivial, fun name hn => FS.set_other _ _ _ _ hn⟩
    | ok text =>
      rw [work_coin_absent J fs coin now text hf hz,
        work_coin_file J _ coin now text (FS.set_same _ _ _)]
      simp only [recordAfter, hz]
      refine ⟨FS.set_same _ _ _, trivial, fun name hn => ?_⟩
      rw [FS.set_other _ _ _ _ hn, FS.set_other _ _ _ _ hn]

theorem work_coins_isolated {F : Type} (J : Json F) (coin : String) :
    ∀ (entries : List (Coin F × Int)) (fs fs' : FS),
    fs (fileName coin) = fs' (fileName coin) →
    (work.coins J fs entries).1 (fileName coin)
        = (work.coins J fs' (entries.filter (fun e => e.1.asset = coin))).1 (fileName coin) ∧
    flagsOf coin entries (work.coins J fs entries).2
        = (work.coins J fs' (entries.filter (fun e => e.1.asset = coin))).2
  | [], fs, fs', h => ⟨h, rfl⟩
  | (c, now) :: rest, fs, fs', h => by
    obtain ⟨h1, h2, h3⟩ := work_coin_local J fs c now
    by_cases hc : c.asset = coin
    · obtain ⟨h1', h2', -⟩ := work_coin_local J fs' c now
      have hagree : (work.coin J fs c now).1 (fileName coin)
          = (work.coin J fs' c now).1 (fileName coin) := by
        subst hc
        rw [h1, h1', h]
      have hflag : (work.coin J fs c now).2 = (work.coin J fs' c now).2 := by
        subst hc
        rw [h2, h2', h]
      obtain ⟨ih1, ih2⟩ := work_coins_isolated J coin rest _ _ hagree
      simp only [List.filter_cons, hc, decide_True, if_true, work.coins, flagsOf,
        List.zip_cons_cons, List.map_cons]
      exact ⟨ih1, by rw [hflag]; exact congrArg _ ih2⟩
    · have hne : fileName coin ≠ fileName c.asset := fun he => hc (fileName_injective he).symm
      have hagree : (work.coin J fs c now).1 (fileName coin) = fs' (fileName coin) := by
        rw [h3 _ hne, h]
      obtain ⟨ih1, ih2⟩ := work_coins_isolated J coin rest _ _ hagree
      simp only [List.filter_cons, hc, decide_False, work.coins, flagsOf,
        List.zip_cons_cons]
      exact ⟨ih1, ih2⟩

/-! ## The equal-length invariant -/

theorem zero_equalLengths {F : Type} : (jsonStruct.zero : jsonStruct F).EqualLengths :=
  ⟨rfl, rfl⟩

theorem observe_equalLengths {F : Type} (v : jsonStruct F) (b r : F) (t : Int)
    (h : v.EqualLengths) : (v.observe b r t).EqualLengths := by
  obtain ⟨h1, h2⟩ := h
  simp only [Slice.len, Slice.elems] at h1 h2
  simp [jsonStruct.EqualLengths, jsonStruct.observe, Slice.len, Slice.append, Slice.elems, h1, h2]

theorem entryResult_equalLengths {F : Type} (J : Json F) (hJ : J.Lawful) (content : Bytes)
    (coin : Coin F) (now : Int)
    (h : ∀ v, J.Unmarshal content = .ok v → v.EqualLengths) :
    ∀ v, J.Unmarshal (entryResult J content coin now).1 = .ok v → v.EqualLengths := by
  unfold entryResult
  cases hu : J.Unmarshal content with
  | error err =>
    intro v hv
    simp only [hu] at hv
    cases hv
  | ok data =>
    simp only []
    cases hm : J.MarshalIndent
        (data.observe coin.totalBorrowInUsdt coin.totalRepayInUsdt now) with
    | error err =>
      intro v hv
      exact h v (by simpa using hv)
    | ok text =>
      intro v hv
      simp only [overwrite] at hv
      rw [hJ.complete _ text _ v hm hv]
      exact observe_equalLengths data _ _ _ (h data hu)

theorem zeroText_equalLengths {F : Type} (J : Json F) (hJ : J.Lawful) (text : Bytes)
    (hz : J.MarshalIndent jsonStruct.zero = .ok text) :
    ∀ v, J.Unmarshal text = .ok v → v.EqualLengths := by
  intro v hv
  rw [hJ.complete _ text [] v hz (by rw [List.append_nil]; exact hv)]
  exact zero_equalLengths

theorem set_equalLengths {F : Type} (J : Json F) (fs : FS) (name : String) (content : Bytes)
    (h : EqualLengths J fs) (hc : ∀ v, J.Unmarshal content = .ok v → v.EqualLengths) :
    EqualLengths J (fs.set name content) := by
  intro n c v hn hv
  by_cases hname : n = name
  · subst hname
    rw [FS.set_same] at hn
    cases hn
    exact hc v hv
  · rw [FS.set_other _ _ _ _ hname] at hn
    exact h n c v hn hv

theorem readJson_equalLengths {F : Type} (J : Json F) (hJ : J.Lawful) (fs : FS) (coin : String)
    (h : EqualLengths J fs) : EqualLengths J (readJson J fs coin).2 := by
  cases hf : fs (fileName coin) with
  | some content => rw [readJson_file J fs coin content hf]; exact h
  | none =>
    obtain ⟨text, hz⟩ := hJ.marshal_zero
    rw [readJson_absent J fs coin text hf hz]
    exact set_equalLengths J fs _ text h (zeroText_equalLengths J hJ text hz)

theorem work_coin_equalLengths {F : Type} (J : Json F) (hJ : J.Lawful) (fs : FS)
    (coin : Coin F) (now : Int) (h : EqualLengths J fs) :
    EqualLengths J (work.coin J fs coin now).1 := by
  cases hf : fs (fileName coin.asset) with
  | some content =>
    rw [work_coin_file J fs coin now content hf]
    exact set_equalLengths J fs _ _ h
      (entryResult_equalLengths J hJ content coin now (fun v hv => h _ content v hf hv))
  | none =>
    obtain ⟨text, hz⟩ := hJ.marshal_zero
    rw [work_coin_absent J fs coin now text hf hz,
      work_coin_file J _ coin now text (FS.set_same _ _ _), FS.set_set]
    exact set_equalLengths J fs _ _ h
      (entryResult_equalLengths J hJ text coin now (zeroText_equalLengths J hJ text hz))

theorem work_coins_equalLengths {F : Type} (J : Json F) (hJ : J.Lawful) :
    ∀ (entries : List (Coin F × Int)) (fs : FS), EqualLengths J fs →
    EqualLengths J (work.coins J fs entries).1
  | [], _, h => h
  | (c, now) :: rest, fs, h =>
    work_coins_equalLengths J hJ rest _ (work_coin_equalLengths J hJ fs c now h)

theorem work_cycle_equalLengths {F : Type} (J : Json F) (hJ : J.Lawful) (st : State)
    (env : CycleEnv F) (h : EqualLengths J st.fs) :
    EqualLengths J (work.cycle J st env).1.fs := by
  cases hr : env.response with
  | error err => rw [work_cycle_error J st env err hr]; exact h
  | ok snap =>
    by_cases hlt : st.oldD < snap.calculationTime
    · rw [work_cycle_accept J st env snap hr hlt]
      exact work_coins_equalLengths J hJ _ _ h
    · rw [work_cycle_stale J st env snap hr (not_lt.mp hlt)]; exact h

/-! ## Appending on a directory the program wrote -/

theorem series_congr {F : Type} (J : Json F) (fs fs' : FS) (coin : String)
    (h : fs (fileName coin) = fs' (fileName coin)) : series J fs coin = series J fs' coin := by
  simp only [series, stored, h]

theorem series_of_marshal {F : Type} (J : Json F) (hJ : J.Lawful) (fs : FS) (coin : String)
    (v : jsonStruct F) (content : Bytes) (h : fs (fileName coin) = some content)
    (hm : J.MarshalIndent v = .ok content) : series J fs coin = v := by
  simp only [series, stored, h, hJ.roundtrip v content hm, Option.getD_some]

theorem series_absent {F : Type} (J : Json F) (fs : FS) (coin : String)
    (h : fs (fileName coin) = none) : series J fs coin = jsonStruct.zero := by
  simp only [series, stored, h, Option.getD_none]

theorem set_canonical {F : Type} (J : Json F) (fs : FS) (name : String) (v : jsonStruct F)
    (content : Bytes) (h : Canonical J fs) (hm : J.MarshalIndent v = .ok content) :
    Canonical J (fs.set name content) := by
  intro n c hn
  by_cases hname : n = name
  · subst hname
    rw [FS.set_same] at hn
    cases hn
    exact ⟨v, hm⟩
  · rw [FS.set_other _ _ _ _ hname] at hn
    exact h n c hn

theorem entryResult_canonical {F : Type} (J : Json F) (hJ : J.Lawful) (v : jsonStruct F)
    (content : Bytes) (hm : J.MarshalIndent v = .ok content) (coin : Coin F) (now : Int) :
    entryResult J content coin now =
      match J.MarshalIndent (v.observe coin.totalBorrowInUsdt coin.totalRepayInUsdt now) with
      | .error _ => (content, false)
      | .ok text => (text, true) := by
  unfold entryResult
  rw [hJ.roundtrip v content hm]
  simp only []
  cases hm' : J.MarshalIndent (v.observe coin.totalBorrowInUsdt coin.totalRepayInUsdt now) with
  | error err => rfl
  | ok text =>
    simp only []
    rw [overwrite_of_le content text (hJ.grows v _ _ _ content text hm hm')]

/-- On a record the program wrote, the loop body either appends the observation to the
stored series or leaves the series as it is. -/
theorem work_coin_on_marshal {F : Type} (J : Json F) (hJ : J.Lawful) (fs : FS) (coin : Coin F)
    (now : Int) (v : jsonStruct F) (content : Bytes) (hc : Canonical J fs)
    (h : fs (fileName coin.asset) = some content) (hm : J.MarshalIndent v = .ok content) :
    Canonical J (work.coin J fs coin now).1 ∧
    series J (work.coin J fs coin now).1 coin.asset
      = (if (work.coin J fs coin now).2 = true
          then v.observe coin.totalBorrowInUsdt coin.totalRepayInUsdt now else v) := by
  rw [work_coin_file J fs coin now content h, entryResult_canonical J hJ v content hm]
  cases hm' : J.MarshalIndent (v.observe coin.totalBorrowInUsdt coin.totalRepayInUsdt now) with
  | error err =>
    simp only [Bool.false_eq_true, if_false]
    exact ⟨set_canonical J fs _ v content hc hm,
      series_of_marshal J hJ _ _ v content (FS.set_same _ _ _) hm⟩
  | ok text =>
    simp only [if_true]
    exact ⟨set_canonical J fs _ _ text hc hm',
      series_of_marshal J hJ _ _ _ text (FS.set_same _ _ _) hm'⟩

theorem work_coin_canonical {F : Type} (J : Json F) (hJ : J.Lawful) (fs : FS) (coin : Coin F)
    (now : Int) (hc : Canonical J fs) :
    Canonical J (work.coin J fs coin now).1 ∧
    ∀ a : String, series J (work.coin J fs coin now).1 a
      = (if coin.asset = a ∧ (work.coin J fs coin now).2 = true
          then (series J fs a).observe coin.totalBorrowInUsdt coin.totalRepayInUsdt now
          else series J fs a) := by
  have hkey : Canonical J (work.coin J fs coin now).1 ∧
      series J (work.coin J fs coin now).1 coin.asset
        = (if (work.coin J fs coin now).2 = true
            then (series J fs coin.asset).observe coin.totalBorrowInUsdt
              coin.totalRepayInUsdt now
            else series J fs coin.asset) := by
    cases hf : fs (fileName coin.asset) with
    | some content =>
      obtain ⟨v, hm⟩ := hc _ content hf
      rw [series_of_marshal J hJ fs coin.asset v content hf hm]
      exact work_coin_on_marshal J hJ fs coin now v content hc hf hm
    | none =>
      obtain ⟨text, hz⟩ := hJ.marshal_zero
      rw [series_absent J fs coin.asset hf, work_coin_absent J fs coin now text hf hz]
      exact work_coin_on_marshal J hJ _ coin now jsonStruct.zero text
        (set_canonical J fs _ _ text hc hz) (FS.set_same _ _ _) hz
  refine ⟨hkey.1, fun a => ?_⟩
  by_cases ha : coin.asset = a
  · subst ha
    rw [hkey.2]
    simp
  · have hne : fileName a ≠ fileName coin.asset := fun he => ha (fileName_injective he).symm
    rw [series_congr J _ fs a ((work_coin_local J fs coin now).2.2 _ hne)]
    simp [ha]

theorem observeAll_elems {F : Type} : ∀ (obs : List (F × F × Int)) (v : jsonStruct F),
    (observeAll v obs).TotalBorrow.elems = v.TotalBorrow.elems ++ obs.map (fun o => o.1) ∧
    (observeAll v obs).TotalRepay.elems = v.TotalRepay.elems ++ obs.map (fun o => o.2.1) ∧
    (observeAll v obs).TotalTime.elems = v.TotalTime.elems ++ obs.map (fun o => o.2.2)
  | [], v => by simp [observeAll]
  | o :: obs, v => by
    obtain ⟨h1, h2, h3⟩ := observeAll_elems obs (v.observe o.1 o.2.1 o.2.2)
    simp only [observeAll, List.foldl_cons] at h1 h2 h3 ⊢
    rw [h1, h2, h3]
    simp [jsonStruct.observe, Slice.append, Slice.elems]

theorem observeAll_append {F : Type} (v : jsonStruct F) (a b : List (F × F × Int)) :
    observeAll v (a ++ b) = observeAll (observeAll v a) b := by
  simp [observeAll, List.foldl_append]

theorem work_coins_canonical {F : Type} (J : Json F) (hJ : J.Lawful) :
    ∀ (entries : List (Coin F × Int)) (fs : FS), Canonical J fs →
    Canonical J (work.coins J fs entries).1 ∧
    ∀ a : String, series J (work.coins J fs entries).1 a
      = observeAll (series J fs a) (savedObs a entries (work.coins J fs entries).2)
  | [], fs, hc => ⟨hc, fun _ => rfl⟩
  | (c, now) :: rest, fs, hc => by
    obtain ⟨hc1, hs1⟩ := work_coin_canonical J hJ fs c now hc
    obtain ⟨hc2, hs2⟩ := work_coins_canonical J hJ rest _ hc1
    refine ⟨hc2, fun a => ?_⟩
    simp only [work.coins, savedObs]
    rw [hs2 a, hs1 a]
    by_cases hcond : c.asset = a ∧ (work.coin J fs c now).2 = true
    · simp only [hcond, and_self, if_true]
      rfl
    · simp only [hcond, if_false]

theorem work_loop_canonical {F : Type} (J : Json F) (hJ : J.Lawful) :
    ∀ (envs : List (CycleEnv F)) (st : State), Canonical J st.fs →
    Canonical J (work.loop J st envs).1.fs ∧
    ∀ a : String, series J (work.loop J st envs).1.fs a
      = observeAll (series J st.fs a) (savedInRun a envs (work.loop J st envs).2)
  | [], st, hc => ⟨hc, fun _ => rfl⟩
  | env :: envs, st, hc => by
    simp only [work.loop]
    cases hr : env.response with
    | error err =>
      rw [work_cycle_error J st env err hr]
      obtain ⟨h1, h2⟩ := work_loop_canonical J hJ envs st hc
      exact ⟨h1, fun a => by rw [h2 a]; rfl⟩
    | ok snap =>
      by_cases hlt : st.oldD < snap.calculationTime
      · rw [work_cycle_accept J st env snap hr hlt]
        obtain ⟨hc1, hs1⟩ := work_coins_canonical J hJ (timed snap.coins env.clock) st.fs hc
        obtain ⟨h1, h2⟩ := work_loop_canonical J hJ envs
          ⟨(work.coins J st.fs (timed snap.coins env.clock)).1, snap.calculationTime⟩ hc1
        refine ⟨h1, fun a => ?_⟩
        rw [h2 a]
        simp only [savedInRun, hr]
        rw [observeAll_append, hs1 a]
      · rw [work_cycle_stale J st env snap hr (not_lt.mp hlt)]
        obtain ⟨h1, h2⟩ := work_loop_canonical J hJ envs st hc
        exact ⟨h1, fun a => by rw [h2 a]; rfl⟩

/-- C5 as the code has it.  On a directory whose records the program wrote, after any
sequence of cycles the series of a coin is its series before followed by the observations
of the entries that name the coin in accepted snapshots and whose load and save succeeded,
one per entry and in order: nothing is removed or changed, an entry that fails appends
nothing, and two entries for one coin in one snapshot append two observations. -/
theorem work_loop_appends {F : Type} (J : Json F) (hJ : J.Lawful) (st : State)
    (hc : Canonical J st.fs) (envs : List (CycleEnv F)) (coin : String) :
    (series J (work.loop J st envs).1.fs coin).TotalBorrow.elems
      = (series J st.fs coin).TotalBorrow.elems
          ++ (savedInRun coin envs (work.loop J st envs).2).map (fun o => o.1) ∧
    (series J (work.loop J st envs).1.fs coin).TotalRepay.elems
      = (series J st.fs coin).TotalRepay.elems
          ++ (savedInRun coin envs (work.loop J st envs).2).map (fun o => o.2.1) ∧
    (series J (work.loop J st envs).1.fs coin).TotalTime.elems
      = (series J st.fs coin).TotalTime.elems
          ++ (savedInRun coin envs (work.loop J st envs).2).map (fun o => o.2.2) ∧
    (series J (work.loop J st envs).1.fs coin).TotalBorrow.len
      = (series J st.fs coin).TotalBorrow.len
          + (savedInRun coin envs (work.loop J st envs).2).length := by
  obtain ⟨-, hs⟩ := work_loop_canonical J hJ envs st hc
  obtain ⟨h1, h2, h3⟩ := observeAll_elems (savedInRun coin envs (work.loop J st envs).2)
    (series J st.fs coin)
  rw [hs coin]
  refine ⟨h1, h2, h3, ?_⟩
  simp only [Slice.len, h1, List.length_append, List.length_map]

theorem work_loop_appends_witness :
    goJson.Lawful ∧ Canonical goJson stBtcOne.fs ∧
    (series goJson (work.loop goJson stBtcOne [envOf snapBtcTwice, envOf snapBtcNaN]).1.fs
        "BTC").TotalBorrow.len
      = (series goJson stBtcOne.fs "BTC").TotalBorrow.len
          + (savedInRun "BTC" [envOf snapBtcTwice, envOf snapBtcNaN]
              (work.loop goJson stBtcOne [envOf snapBtcTwice, envOf snapBtcNaN]).2).length :=
  have hc : Canonical goJson stBtcOne.fs := by
    intro name content h
    by_cases hn : name = fileName "BTC"
    · subst hn
      exact ⟨btcOne, by rw [← Option.some.inj h]; rfl⟩
    · simp [stBtcOne, fsBtc, FS.set, FS.empty, hn] at h
  ⟨goJson_lawful, hc,
    (work_loop_appends goJson goJson_lawful stBtcOne hc
      [envOf snapBtcTwice, envOf snapBtcNaN] "BTC").2.2.2⟩

/-- C5 as the specification has it fails.  From the empty directory one accepted snapshot
that names BTC twice leaves a series of length two, not one; and one accepted snapshot
whose entry for BTC cannot be saved leaves the length at zero, not one. -/
theorem work_append_count_differs :
    (series goJson FS.empty "BTC").TotalBorrow.len = 0 ∧
    acceptedWith "BTC" [envOf snapBtcTwice] (work goJson FS.empty 100 [envOf snapBtcTwice]).2
      = 1 ∧
    (series goJson (work goJson FS.empty 100 [envOf snapBtcTwice]).1.fs "BTC").TotalBorrow.len
      = 2 ∧
    (series goJson (work goJson FS.empty 100 [envOf snapBtcTwice]).1.fs "BTC").TotalBorrow.len
      ≠ (series goJson FS.empty "BTC").TotalBorrow.len
        + acceptedWith "BTC" [envOf snapBtcTwice]
            (work goJson FS.empty 100 [envOf snapBtcTwice]).2 ∧
    acceptedWith "BTC" [envOf snapBtcNaN] (work goJson FS.empty 100 [envOf snapBtcNaN]).2
      = 1 ∧
    (series goJson (work goJson FS.empty 100 [envOf snapBtcNaN]).1.fs "BTC").TotalBorrow.len
      = 0 ∧
    (series goJson (work goJson FS.empty 100 [envOf snapBtcNaN]).1.fs "BTC").TotalBorrow.len
      ≠ (series goJson FS.empty "BTC").TotalBorrow.len
        + acceptedWith "BTC" [envOf snapBtcNaN]
            (work goJson FS.empty 100 [envOf snapBtcNaN]).2 := by
  set_option maxRecDepth 100000 in
  exact ⟨rfl, rfl, rfl, by decide, rfl, rfl, by decide⟩

/-! ## An accepted cycle on a directory the program wrote -/

theorem work_coins_flags_length {F : Type} (J : Json F) :
    ∀ (entries : List (Coin F × Int)) (fs : FS),
    (work.coins J fs entries).2.length = entries.length
  | [], _ => rfl
  | (c, now) :: rest, fs => by
    simp only [work.coins, List.length_cons, work_coins_flags_length J rest]

theorem savedObs_none {F : Type} (coin : String) :
    ∀ (entries : List (Coin F × Int)) (flags : List Bool),
    (∀ e ∈ entries, e.1.asset ≠ coin) → savedObs coin entries flags = []
  | [], _, _ => by simp [savedObs]
  | _ :: _, [], _ => by simp [savedObs]
  | (c, now) :: rest, f :: flags, h => by
    have hc : c.asset ≠ coin := h (c, now) (by simp)
    simp only [savedObs, hc, false_and, if_false]
    exact savedObs_none coin rest flags (fun e he => h e (by simp [he]))

theorem savedObs_single {F : Type} (c : Coin F) (now : Int) :
    ∀ (entries : List (Coin F × Int)) (flags : List Bool),
    flags.length = entries.length → (∀ f ∈ flags, f = true) →
    (entries.map (fun e => e.1.asset)).Nodup → (c, now) ∈ entries →
    savedObs c.asset entries flags = [(c.totalBorrowInUsdt, c.totalRepayInUsdt, now)]
  | [], _, _, _, _, hmem => by simp at hmem
  | _ :: _, [], hlen, _, _, _ => by simp at hlen
  | (c', now') :: rest, f :: flags, hlen, hall, hnd, hmem => by
    have hf : f = true := hall f (by simp)
    simp only [List.map_cons, List.nodup_cons, List.mem_map, not_exists, not_and] at hnd
    simp only [List.mem_cons, Prod.mk.injEq] at hmem
    rcases hmem with ⟨rfl, rfl⟩ | hmem
    · simp only [savedObs, hf, and_self, if_true]
      rw [savedObs_none c.asset rest flags (fun e he heq => hnd.1 e he heq)]
    · have hne : c'.asset ≠ c.asset := fun heq => hnd.1 (c, now) hmem heq.symm
      simp only [savedObs, hne, false_and, if_false]
      exact savedObs_single c now rest flags (by simpa using hlen)
        (fun g hg => hall g (by simp [hg])) hnd.2 hmem

theorem work_coins_frame {F : Type} (J : Json F) (coin : String) :
    ∀ (entries : List (Coin F × Int)) (fs : FS), (∀ e ∈ entries, e.1.asset ≠ coin) →
    (work.coins J fs entries).1 (fileName coin) = fs (fileName coin)
  | [], _, _ => rfl
  | (c, now) :: rest, fs, h => by
    have hc : c.asset ≠ coin := h (c, now) (by simp)
    have hne : fileName coin ≠ fileName c.asset := fun he => hc (fileName_injective he).symm
    simp only [work.coins]
    rw [work_coins_frame J coin rest _ (fun e he => h e (by simp [he])),
      (work_coin_local J fs c now).2.2 _ hne]

/-- On a directory whose records the program wrote, after an accepted cycle whose entries
name distinct coins and all succeed, the series of every named coin is its series before
with the observation of its entry appended, and the file of a coin that is not named is
untouched. -/
theorem work_cycle_accept_canonical {F : Type} (J : Json F) (hJ : J.Lawful) (st : State)
    (hc : Canonical J st.fs) (env : CycleEnv F) (snap : Snapshot F)
    (h : env.response = .ok snap) (hlt : st.oldD < snap.calculationTime)
    (hnd : ((timed snap.coins env.clock).map (fun e => e.1.asset)).Nodup)
    (hall : ∀ f ∈ (work.coins J st.fs (timed snap.coins env.clock)).2, f = true) :
    (∀ c now, (c, now) ∈ timed snap.coins env.clock →
      series J (work.cycle J st env).1.fs c.asset
        = (series J st.fs c.asset).observe c.totalBorrowInUsdt c.totalRepayInUsdt now) ∧
    (∀ coin : String, (∀ e ∈ timed snap.coins env.clock, e.1.asset ≠ coin) →
      (work.cycle J st env).1.fs (fileName coin) = st.fs (fileName coin)) ∧
    (work.cycle J st env).1.oldD = snap.calculationTime := by
  rw [work_cycle_accept J st env snap h hlt]
  refine ⟨fun c now hmem => ?_, fun coin hno => work_coins_frame J coin _ st.fs hno, rfl⟩
  simp only []
  rw [(work_coins_canonical J hJ _ st.fs hc).2 c.asset,
    savedObs_single c now _ _ (work_coins_flags_length J _ _) hall hnd hmem]
  rfl

/-! ## Loads and cycles in any order -/

theorem readJson_canonical {F : Type} (J : Json F) (hJ : J.Lawful) (fs : FS) (coin : String)
    (h : Canonical J fs) : Canonical J (readJson J fs coin).2 := by
  cases hf : fs (fileName coin) with
  | some content => rw [readJson_file J fs coin content hf]; exact h
  | none =>
    obtain ⟨text, hz⟩ := hJ.marshal_zero
    rw [readJson_absent J fs coin text hf hz]
    exact set_canonical J fs _ _ text h hz

theorem work_cycle_canonical {F : Type} (J : Json F) (hJ : J.Lawful) (st : State)
    (env : CycleEnv F) (h : Canonical J st.fs) : Canonical J (work.cycle J st env).1.fs := by
  cases hr : env.response with
  | error err => rw [work_cycle_error J st env err hr]; exact h
  | ok snap =>
    by_cases hlt : st.oldD < snap.calculationTime
    · rw [work_cycle_accept J st env snap hr hlt]
      exact (work_coins_canonical J hJ _ st.fs h).1
    · rw [work_cycle_stale J st env snap hr (not_lt.mp hlt)]; exact h

theorem runOps_canonical {F : Type} (J : Json F) (hJ : J.Lawful) (st : State)
    (ops : List (Op F)) (h : Canonical J st.fs) : Canonical J (runOps J st ops).fs := by
  induction ops generalizing st with
  | nil => exact h
  | cons op ops ih =>
    simp only [runOps, List.foldl_cons]
    apply ih
    cases op with
    | load coin => exact readJson_canonical J hJ st.fs coin h
    | cycle env => exact work_cycle_canonical J hJ st env h

theorem runOps_preserves {F : Type} (J : Json F) (hJ : J.Lawful) (st : State)
    (ops : List (Op F)) (h : EqualLengths J st.fs) : EqualLengths J (runOps J st ops).fs := by
  induction ops generalizing st with
  | nil => exact h
  | cons op ops ih =>
    simp only [runOps, List.foldl_cons]
    apply ih
    cases op with
    | load coin => exact readJson_equalLengths J hJ st.fs coin h
    | cycle env => exact work_cycle_equalLengths J hJ st env h

/-- C4. From a directory in which every record that decodes has three slices of equal
length (the empty directory is one), every sequence of loads and cycles, whatever the
cycles fetch and whichever loads and saves fail, leads to such a directory.  When the
records of the directory are texts the program wrote (the empty directory again), every
record decodes afterwards, to a series with three slices of equal length. -/
theorem runOps_equalLengths {F : Type} (J : Json F) (hJ : J.Lawful) (st : State)
    (ops : List (Op F)) (h : EqualLengths J st.fs) :
    EqualLengths J (runOps J st ops).fs ∧
    (Canonical J st.fs → ∀ name content, (runOps J st ops).fs name = some content →
      ∃ v, J.Unmarshal content = .ok v ∧ v.EqualLengths) := by
  have hinv := runOps_preserves J hJ st ops h
  refine ⟨hinv, fun hc name content hn => ?_⟩
  obtain ⟨v, hv⟩ := runOps_canonical J hJ st ops hc name content hn
  exact ⟨v, hJ.roundtrip v content hv, hinv name content v hn (hJ.roundtrip v content hv)⟩

theorem runOps_equalLengths_witness :
    goJson.Lawful ∧ EqualLengths goJson (State.mk FS.empty 100).fs ∧
    EqualLengths goJson (runOps goJson ⟨FS.empty, 100⟩
      [.load "BTC", .cycle (envOf (snapBtc 150)), .cycle envFailed, .cycle (envOf snapBtcNaN),
        .cycle (envOf (snapBtc 120)), .load "ETH"]).fs :=
  ⟨goJson_lawful, fun _ _ _ h => by simp [FS.empty] at h,
    (runOps_equalLengths goJson goJson_lawful ⟨FS.empty, 100⟩ _
      (fun _ _ _ h => by simp [FS.empty] at h)).1⟩

/-! ## Isolation of the entries of one snapshot -/

/-- On a directory whose records the program wrote, an accepted cycle sets `oldD` to the
`calculationTime` whatever the flags of its entries, and leaves for every coin its series
before followed by the observations of the entries that name it and whose load and save
succeeded: an entry that fails appends nothing and takes nothing from the others. -/
theorem work_cycle_series_canonical {F : Type} (J : Json F) (hJ : J.Lawful) (st : State)
    (hc : Canonical J st.fs) (env : CycleEnv F) (snap : Snapshot F)
    (h : env.response = .ok snap) (hlt : st.oldD < snap.calculationTime) :
    (work.cycle J st env).1.oldD = snap.calculationTime ∧
    (work.cycle J st env).2 = .ok (work.coins J st.fs (timed snap.coins env.clock)).2 ∧
    Canonical J (work.cycle J st env).1.fs ∧
    ∀ coin : String, series J (work.cycle J st env).1.fs coin
      = observeAll (series J st.fs coin)
          (savedObs coin (timed snap.coins env.clock)
            (work.coins J st.fs (timed snap.coins env.clock)).2) := by
  rw [work_cycle_accept J st env snap h hlt]
  obtain ⟨h1, h2⟩ := work_coins_canonical J hJ (timed snap.coins env.clock) st.fs hc
  exact ⟨rfl, rfl, h1, h2⟩

/-- C7 fails on the code.  The record of BTC holds one observation, written with four
spaces per level; the accepted snapshot has an entry for ETH that cannot be saved and an
entry for BTC.  The entry for ETH fails and appends nothing, `oldD` becomes 150, and the
entry for BTC loads and saves without error; but its text is written without truncation
over the longer record, so the observation is not appended to the series of BTC: the
stored record no longer decodes.  On the record the program itself wrote the same cycle
stores the two observations. -/
theorem work_cycle_isolation_oversized :
    stored goJson (fsBtc btcOneSpaces) "BTC" = some btcOne ∧
    (work.cycle goJson ⟨fsBtc btcOneSpaces, 100⟩ (envOf snapEthNaN)).2 = .ok [false, true] ∧
    (work.cycle goJson ⟨fsBtc btcOneSpaces, 100⟩ (envOf snapEthNaN)).1.oldD = 150 ∧
    stored goJson (work.cycle goJson ⟨fsBtc btcOneSpaces, 100⟩ (envOf snapEthNaN)).1.fs "ETH"
      = some jsonStruct.zero ∧
    (work.cycle goJson ⟨fsBtc btcOneSpaces, 100⟩ (envOf snapEthNaN)).1.fs (fileName "BTC")
      = some (btcTwoText ++ "0000\n    ]\n\x7d".toList) ∧
    stored goJson (work.cycle goJson ⟨fsBtc btcOneSpaces, 100⟩ (envOf snapEthNaN)).1.fs "BTC"
      = none ∧
    stored goJson (work.cycle goJson ⟨fsBtc btcOneSpaces, 100⟩ (envOf snapEthNaN)).1.fs "BTC"
      ≠ some btcTwo ∧
    stored goJson (work.cycle goJson ⟨fsBtc btcOneText, 100⟩ (envOf snapEthNaN)).1.fs "BTC"
      = some btcTwo := by
  set_option maxRecDepth 100000 in
  exact ⟨rfl, rfl, rfl, rfl, by decide, rfl, by
    have hnone : stored goJson
        (work.cycle goJson ⟨fsBtc btcOneSpaces, 100⟩ (envOf snapEthNaN)).1.fs "BTC" = none := rfl
    rw [hnone]
    exact fun h' => Option.noConfusion h', rfl⟩

end BinanceChart
